import Mathlib

/-!
Verification of `src/stim/stabilizers/conversions.h`.

The header defines three functions inline (`floor_lg2`, `is_power_of_2`,
`unitary_circuit_inverse`) and declares the remaining conversion routines,
whose bodies live in `conversions.inl` / `conversions.cc` (not part of the
sources at hand).  Inline functions are embedded directly from the C++;
declared-only routines are modelled from the specification, with each such
definition marked `Modelled from the spec:` in its doc comment.

Machine integers: `size_t` values are embedded as `Nat`.  In `floor_lg2`
the `uint8_t` accumulator never exceeds 63 for any 64-bit `size_t` input,
and `value - 1` in `is_power_of_2` is only evaluated after the `value != 0`
short-circuit, so no wraparound can occur and plain `Nat` arithmetic is a
faithful embedding.
-/

namespace StimConv

/-- Embedding of `floor_lg2` from `conversions.h`:
`while (value > 1) { result += 1; value >>= 1; }  return result;`. -/
def floor_lg2 (value : Nat) : Nat :=
  if value > 1 then floor_lg2 (value >>> 1) + 1 else 0
decreasing_by
  simp only [Nat.shiftRight_eq_div_pow, Nat.pow_one]
  omega

/-- Embedding of `is_power_of_2` from `conversions.h`:
`return value != 0 && (value & (value - 1)) == 0;`
(the C++ returns the boolean as a `uint8_t` 0/1). -/
def is_power_of_2 (value : Nat) : Bool :=
  value != 0 && (value &&& (value - 1)) == 0

/-!
## Circuit inverter (`unitary_circuit_inverse`)

The function body is inline in `conversions.h`.  Its dependencies
(`GATE_DATA`, `CircuitInstruction`, `Circuit::safe_append`,
`for_each_operation_reverse`) are external to the given sources and are
modelled from the spec.
-/

/-- Modelled from the spec: one entry of the process-wide gate-definition
table `GATE_DATA` (immutable static data, external to `conversions.h`),
restricted to what the conversions consult: the `GATE_IS_UNITARY`,
`GATE_TARGETS_PAIRS`, `GATE_IS_NOISY`, `GATE_PRODUCES_RESULTS` and
`GATE_IS_RESET` flags, and the id of the inverse gate
(`gate_data.inverse()`). -/
structure GateData where
  is_unitary : Bool
  targets_pairs : Bool
  inverse : Nat
  is_noisy : Bool
  produces_results : Bool
  is_reset : Bool
deriving DecidableEq

/-- Modelled from the spec: a circuit instruction — an opcode (gate id), a
flat target list, and numeric arguments.  The arguments are carried
verbatim by every routine here, so their embedding type is immaterial. -/
structure CircuitInstruction where
  gate_type : Nat
  targets : List Nat
  args : List Int
deriving DecidableEq

/-- Modelled from the spec: a circuit is an ordered sequence of
instructions; `for_each_operation_reverse` visits them in reverse order. -/
abbrev Circuit := List CircuitInstruction

/-- The `step` computed by `unitary_circuit_inverse`:
`(gate_data.flags & GATE_TARGETS_PAIRS) ? 2 : 1`. -/
def stepOf (gd : Nat → GateData) (op : CircuitInstruction) : Nat :=
  if (gd op.gate_type).targets_pairs then 2 else 1

/-- Embedding of the emission loop of `unitary_circuit_inverse`:
`for (size_t k = op.targets.size(); k > 0; k -= step)` appends an
instruction with the targets `[s + k - step, s + k)`.  The loop counter `k`
decreases by `step ≥ 1` per round, so the structural `fuel` argument
(always instantiated with `fuel = k`) bounds the iteration count without
affecting the produced list. -/
def inv_emit_loop (g : Nat) (a : List Int) (t : List Nat) (step : Nat) :
    Nat → Nat → List CircuitInstruction
  | 0, _ => []
  | _, 0 => []
  | fuel+1, k+1 =>
      ⟨g, (t.drop (k + 1 - step)).take step, a⟩ ::
        inv_emit_loop g a t step fuel (k + 1 - step)

/-- The block of instructions the emission loop produces for one visited
instruction: the full countdown starting at `k = op.targets.size()`. -/
def inv_block (gd : Nat → GateData) (op : CircuitInstruction) :
    List CircuitInstruction :=
  inv_emit_loop (gd op.gate_type).inverse op.args op.targets
    (stepOf gd op) op.targets.length op.targets.length

/-- The body of the `for_each_operation_reverse` callback in
`unitary_circuit_inverse`: throw (modelled as `Except.error`) on a
non-unitary gate, otherwise append the emitted block. -/
def inv_fold_step (gd : Nat → GateData) (inverted : List CircuitInstruction)
    (op : CircuitInstruction) : Except String Circuit :=
  if !(gd op.gate_type).is_unitary then
    Except.error "Not unitary"
  else
    Except.ok (inverted ++ inv_block gd op)

/-- Embedding of `unitary_circuit_inverse` from `conversions.h`.  The C++
throws `std::invalid_argument("Not unitary: " + op.str())`, modelled as
`Except.error` (the message's pretty-printed instruction is elided); the
locally accumulated circuit is discarded on failure, so no partial result
escapes.  `safe_append` is modelled from the spec as appending one
instruction. -/
def unitary_circuit_inverse (gd : Nat → GateData) (c : Circuit) :
    Except String Circuit :=
  c.reverse.foldlM (inv_fold_step gd) []

/-- Front-to-back chunking of a target list into blocks of `step` elements
(structural fuel, instantiated with the list length). -/
def chunksGo (step : Nat) : Nat → List Nat → List (List Nat)
  | 0, _ => []
  | _, [] => []
  | fuel+1, l => l.take step :: chunksGo step fuel (l.drop step)

/-- All `step`-blocks of a list, first block first. -/
def chunkList (step : Nat) (l : List Nat) : List (List Nat) :=
  chunksGo step l.length l

/-- The declarative description of the inverted circuit: instructions in
reverse order; each instruction's target blocks (pairs for pair-targeting
gates, single targets otherwise) emitted in reverse block order with the
inside of each block kept intact; the gate replaced by its inverse; the
arguments kept. -/
def invSpec (gd : Nat → GateData) (c : Circuit) : Circuit :=
  c.reverse.flatMap fun op =>
    (chunkList (stepOf gd op) op.targets).reverse.map fun t =>
      ⟨(gd op.gate_type).inverse, t, op.args⟩

/-- The atomic gate applications of a circuit in execution order: each
instruction contributes one atom per target block.  Two all-unitary
circuits with equal atom lists implement the same operation under any
interpretation of the individual gates. -/
def circuitAtoms (gd : Nat → GateData) (c : Circuit) :
    List (Nat × List Nat × List Int) :=
  c.flatMap fun op =>
    (chunkList (stepOf gd op) op.targets).map fun t => (op.gate_type, t, op.args)

/-- Gate inversion on atoms followed by order reversal: the atom-level
effect of one circuit inversion. -/
def invAtoms (gd : Nat → GateData) (l : List (Nat × List Nat × List Int)) :
    List (Nat × List Nat × List Int) :=
  (l.map fun x => ((gd x.1).inverse, x.2.1, x.2.2)).reverse

/-- A concrete gate table for the witness theorems: gate 0 is a
self-inverse single-target gate (like H), gates 1 and 2 are mutually
inverse single-target gates (like S and S_DAG), gate 3 is a self-inverse
pair-targeting gate (like CX), gate 4 produces measurement results, gate 5
is a noise channel, gate 6 is a reset, and every other id is a
self-inverse single-target gate. -/
def gdSample : Nat → GateData
  | 0 => ⟨true, false, 0, false, false, false⟩
  | 1 => ⟨true, false, 2, false, false, false⟩
  | 2 => ⟨true, false, 1, false, false, false⟩
  | 3 => ⟨true, true, 3, false, false, false⟩
  | 4 => ⟨false, false, 4, false, true, false⟩
  | 5 => ⟨false, false, 5, true, false, false⟩
  | 6 => ⟨false, false, 6, false, false, true⟩
  | n+7 => ⟨true, false, n+7, false, false, false⟩

/-- A concrete circuit for the witness theorems: gate 3 (pair-targeting) on
the pairs (0,1) and (2,3), then gate 1 on the targets 0 and 2. -/
def cSample : Circuit :=
  [⟨3, [0, 1, 2, 3], []⟩, ⟨1, [0, 2], []⟩]

/-!
## Circuit-to-tableau compiler (`circuit_to_tableau`)

Declared in `conversions.h`; the body lives in the absent
`conversions.inl`, so the compiler is modelled from the spec.
-/

/-- Modelled from the spec: the abstract error kinds raised by the
conversion routines (spec §7), restricted to the kinds the embedded
routines can raise. -/
inductive ConvError
  | unsupported
  | redundant
  | underconstrained
  | mismatch
deriving DecidableEq

/-- Modelled from the spec: one folding step of `circuit_to_tableau`.
A unitary instruction is composed into the accumulated tableau via
`applyU` (the tableau algebra is an external collaborator, so the state
type and the unitary action are parameters); a noise / measurement / reset
instruction whose corresponding ignore flag is unset fails with an
unsupported-instruction error; with the flag set it is skipped with no
state mutation; any other non-unitary instruction is unsupported. -/
def ctt_step {σ : Type} (gd : Nat → GateData)
    (applyU : CircuitInstruction → σ → σ)
    (ignore_noise ignore_measurement ignore_reset : Bool)
    (acc : σ) (op : CircuitInstruction) : Except ConvError σ :=
  if (gd op.gate_type).is_unitary then Except.ok (applyU op acc)
  else if (gd op.gate_type).is_noisy && !ignore_noise then
    Except.error ConvError.unsupported
  else if (gd op.gate_type).produces_results && !ignore_measurement then
    Except.error ConvError.unsupported
  else if (gd op.gate_type).is_reset && !ignore_reset then
    Except.error ConvError.unsupported
  else if (gd op.gate_type).is_noisy || (gd op.gate_type).produces_results ||
      (gd op.gate_type).is_reset then
    Except.ok acc
  else Except.error ConvError.unsupported

/-- Modelled from the spec: `circuit_to_tableau` folds the instructions
left to right into an initially provided tableau (the identity in the
C++), composing each unitary gate's action and treating noise /
measurement / reset according to the three ignore flags. -/
def circuit_to_tableau {σ : Type} (gd : Nat → GateData)
    (applyU : CircuitInstruction → σ → σ) (c : Circuit)
    (ignore_noise ignore_measurement ignore_reset : Bool) (init : σ) :
    Except ConvError σ :=
  c.foldlM (ctt_step gd applyU ignore_noise ignore_measurement ignore_reset)
    init

/-- A sample state/action pair for the C5 witness: count the folded
unitary instructions. -/
def applyCount : CircuitInstruction → Nat → Nat := fun _ n => n + 1

/-!
## Stabilizer completion solver (`stabilizers_to_tableau`)

Declared in `conversions.h`; the body lives in the absent
`conversions.inl`, so the solver is modelled from the spec.
-/

/-- Modelled from the spec: a Pauli string — a sign bit (`true` for a
negative sign) and parallel X/Z bit vectors. -/
structure PauliString where
  neg : Bool
  xs : List Bool
  zs : List Bool
deriving DecidableEq

/-- The binary symplectic vector of a Pauli string (X block, then Z
block); the sign does not participate in the linear-dependence test. -/
def sympVec (p : PauliString) : List Bool :=
  p.xs ++ p.zs

/-- Pointwise xor of two bit vectors. -/
def xorVec (a b : List Bool) : List Bool :=
  List.zipWith Bool.xor a b

/-- The zero bit vector of length `m`. -/
def zeroVec (m : Nat) : List Bool :=
  List.replicate m false

/-- All xors of sublists of the given vectors, seeded with the zero
vector `z`: exactly the GF(2) span of the vectors. -/
def subsetXors (z : List Bool) : List (List Bool) → List (List Bool)
  | [] => [z]
  | v :: vs => subsetXors z vs ++ (subsetXors z vs).map (xorVec v)

/-- Modelled from the spec: the redundancy test of
`stabilizers_to_tableau` — a candidate row is redundant exactly when its
binary symplectic vector is linearly dependent on (lies in the GF(2) span
of) the symplectic vectors of the already-accepted rows. -/
def is_redundant (accepted : List PauliString) (p : PauliString) : Bool :=
  decide (sympVec p ∈
    subsetXors (zeroVec (sympVec p).length) (accepted.map sympVec))

/-- Modelled from the spec: processing of one stabilizer row — reject a
mismatched qubit count, drop or fail on a redundant row according to
`allow_redundant`, otherwise accept the row. -/
def s2t_step (n : Nat) (allow_redundant : Bool)
    (accepted : List PauliString) (p : PauliString) :
    Except ConvError (List PauliString) :=
  if ¬(p.xs.length = n ∧ p.zs.length = n) then
    Except.error ConvError.mismatch
  else if is_redundant accepted p then
    if allow_redundant then Except.ok accepted
    else Except.error ConvError.redundant
  else Except.ok (accepted ++ [p])

/-- Modelled from the spec: the accepted independent rows after processing
the input stabilizers in input order. -/
def acceptedRows (n : Nat) (allow_redundant : Bool)
    (stabilizers : List PauliString) : Except ConvError (List PauliString) :=
  stabilizers.foldlM (s2t_step n allow_redundant) []

/-- The qubit count used by `stabilizers_to_tableau`: the length of the
first stabilizer. -/
def qubitCount (stabilizers : List PauliString) : Nat :=
  (stabilizers.head?.map fun p => p.xs.length).getD 0

/-- Modelled from the spec: `stabilizers_to_tableau`, restricted to the
observable surface the claims exercise — the returned tableau is presented
by its list of Z-output rows (spec: 'The Z outputs of the tableau will be
the given stabilizers (skipping any redundant ones)').  The destabilizer
half and the arbitrary completion of missing rows in the allowed
underconstrained case are outside the claims and are not modelled; the
`invert` flag is likewise omitted (the claims concern the non-inverted
tableau). -/
def stabilizers_to_tableau (stabilizers : List PauliString)
    (allow_redundant allow_underconstrained : Bool) :
    Except ConvError (List PauliString) :=
  match acceptedRows (qubitCount stabilizers) allow_redundant stabilizers with
  | Except.error e => Except.error e
  | Except.ok acc =>
      if acc.length < qubitCount stabilizers then
        if allow_underconstrained then Except.ok acc
        else Except.error ConvError.underconstrained
      else Except.ok acc

/-- The 2-qubit stabilizer `+XX`. -/
def xxRow : PauliString :=
  ⟨false, [true, true], [false, false]⟩

/-- The 2-qubit stabilizer `+ZZ`. -/
def zzRow : PauliString :=
  ⟨false, [false, false], [true, true]⟩

/-!
## Tableaus and the elimination synthesizer

`tableau_to_circuit(T, "elimination")` is declared in `conversions.h` with
its body in the absent `conversions.inl`, so the tableau data type, the
gate conjugation rules and the elimination algorithm are modelled from the
spec: off-diagonal symplectic entries are cancelled by Gaussian
elimination over GF(2) using only H, S and CX, producing the exact tableau
back when recompiled.  Gate ids follow `gdSample`: 0 = H, 1 = S, 3 = CX.
-/

/-- Modelled from the spec: an `n`-qubit Pauli with a ±1 sign (`neg` means
a negative sign), stored as parallel X/Z bit masks. -/
structure Pauli (n : Nat) where
  neg : Bool
  x : Fin n → Bool
  z : Fin n → Bool
deriving DecidableEq

/-- Modelled from the spec: an `n`-qubit tableau — for each qubit the
images of `X_i` (row `xs i`) and `Z_i` (row `zs i`) under conjugation. -/
structure Tab (n : Nat) where
  xs : Fin n → Pauli n
  zs : Fin n → Pauli n
deriving DecidableEq

/-- A bit as an element of GF(2). -/
def b2 : Bool → ZMod 2 := fun b => if b then 1 else 0

/-- Whether two Paulis anticommute at site `i`. -/
def pairBit {n : Nat} (P Q : Pauli n) (i : Fin n) : Bool :=
  (P.x i && Q.z i) ^^ (P.z i && Q.x i)

/-- The symplectic pairing: 1 exactly when the two Paulis anticommute. -/
def acomm {n : Nat} (P Q : Pauli n) : ZMod 2 :=
  ∑ i, b2 (pairBit P Q i)

/-- Modelled from the spec: the symplectic validity invariant of a tableau
— the images of the `X_i`/`Z_j` generators reproduce their commutation
relations (spec §3: rows must satisfy the symplectic commutation relations
at all times). -/
def TabOK {n : Nat} (T : Tab n) : Prop :=
  (∀ i, acomm (T.xs i) (T.zs i) = 1) ∧
  (∀ i j, i ≠ j → acomm (T.xs i) (T.zs j) = 0) ∧
  (∀ i j, acomm (T.xs i) (T.xs j) = 0) ∧
  (∀ i j, acomm (T.zs i) (T.zs j) = 0)

/-- Conjugation of a Pauli by H on qubit `q`: swap the X/Z bits at `q`;
the sign flips on Y. -/
def conjH {n : Nat} (q : Fin n) (P : Pauli n) : Pauli n :=
  ⟨P.neg ^^ (P.x q && P.z q),
   Function.update P.x q (P.z q),
   Function.update P.z q (P.x q)⟩

/-- Conjugation of a Pauli by S on qubit `q`: `z_q ^= x_q`; the sign flips
on Y. -/
def conjS {n : Nat} (q : Fin n) (P : Pauli n) : Pauli n :=
  ⟨P.neg ^^ (P.x q && P.z q),
   P.x,
   Function.update P.z q (P.z q ^^ P.x q)⟩

/-- Conjugation of a Pauli by CX with control `c` and target `t`:
`x_t ^= x_c`, `z_c ^= z_t`, and the sign flips when
`x_c ∧ z_t ∧ (x_t = z_c)`. -/
def conjCX {n : Nat} (c t : Fin n) (P : Pauli n) : Pauli n :=
  ⟨P.neg ^^ (P.x c && P.z t && (P.x t == P.z c)),
   Function.update P.x t (P.x t ^^ P.x c),
   Function.update P.z c (P.z c ^^ P.z t)⟩

/-- Apply one Pauli transformation to every row of a tableau. -/
def mapRows {n : Nat} (f : Pauli n → Pauli n) (T : Tab n) : Tab n :=
  ⟨fun i => f (T.xs i), fun i => f (T.zs i)⟩

/-- Modelled from the spec: the action of one gate application (a single
target block) on a tableau.  Out-of-range or malformed targets (never
produced by the synthesizer) act as the identity. -/
def applyChunk {n : Nat} (g : Nat) (ch : List Nat) (T : Tab n) : Tab n :=
  match g, ch with
  | 0, [q] =>
      if h : q < n then mapRows (conjH ⟨q, h⟩) T else T
  | 1, [q] =>
      if h : q < n then mapRows (conjS ⟨q, h⟩) T else T
  | 3, [c, t] =>
      if h : c < n ∧ t < n ∧ c ≠ t then
        mapRows (conjCX ⟨c, h.1⟩ ⟨t, h.2.1⟩) T
      else T
  | _, _ => T

/-- Modelled from the spec: the action of one circuit instruction on a
tableau — the gate applied to each of its target blocks in order. -/
def applyInstr {n : Nat} (op : CircuitInstruction) (T : Tab n) : Tab n :=
  (chunkList (stepOf gdSample op) op.targets).foldl
    (fun S ch => applyChunk op.gate_type ch S) T

/-- The action of a whole instruction list on a tableau, first instruction
first. -/
def applyOps {n : Nat} (ops : List CircuitInstruction) (T : Tab n) : Tab n :=
  ops.foldl (fun S op => applyInstr op S) T

/-- The identity tableau: `X_i ↦ X_i`, `Z_i ↦ Z_i`, positive signs. -/
def idTab (n : Nat) : Tab n :=
  ⟨fun i => ⟨false, fun j => decide (j = i), fun _ => false⟩,
   fun i => ⟨false, fun _ => false, fun j => decide (j = i)⟩⟩

/-- An S instruction on qubit `q`. -/
def sInstr {n : Nat} (q : Fin n) : CircuitInstruction :=
  ⟨1, [q.val], []⟩

/-- An H instruction on qubit `q`. -/
def hInstr {n : Nat} (q : Fin n) : CircuitInstruction :=
  ⟨0, [q.val], []⟩

/-- A CX instruction with control `c` and target `t`. -/
def cxInstr {n : Nat} (c t : Fin n) : CircuitInstruction :=
  ⟨3, [c.val, t.val], []⟩

/-- The instruction-level inverse over the H/S/CX gate set: H and CX are
self-inverse, S is inverted as S·S·S. -/
def invInstr (op : CircuitInstruction) : List CircuitInstruction :=
  if op.gate_type = 1 then [op, op, op] else [op]

/-- The pivot search of the elimination loop: the first row position
`p ≥ col` where the images of `X_col` and `Z_col` anticommute pointwise
(guaranteed to exist by the symplectic invariant). -/
def findPivot {n : Nat} (col : Fin n) (R : Tab n) : Fin n :=
  match (List.finRange n).find?
      (fun p => decide (col ≤ p) && pairBit (R.xs col) (R.zs col) p) with
  | some p => p
  | none => col

/-- The gates moving the pivot row onto the diagonal: a SWAP spelled as
three CX gates (empty when the pivot is already on the diagonal). -/
def swapGates {n : Nat} (col p : Fin n) : List CircuitInstruction :=
  if p = col then []
  else [cxInstr p col, cxInstr col p, cxInstr p col]

/-- First normalization stage at the diagonal: if the image of `Z_col` has
Y at `col`, apply S. -/
def ng1 {n : Nat} (col : Fin n) (R : Tab n) : List CircuitInstruction :=
  if (R.zs col).x col && (R.zs col).z col then [sInstr col] else []

/-- Second normalization stage: if the image of `Z_col` is not plain Z at
`col`, apply H. -/
def ng2 {n : Nat} (col : Fin n) (R : Tab n) : List CircuitInstruction :=
  if !(!(R.zs col).x col && (R.zs col).z col) then [hInstr col] else []

/-- Third normalization stage: if the image of `X_col` is not plain X at
`col`, apply S. -/
def ng3 {n : Nat} (col : Fin n) (R : Tab n) : List CircuitInstruction :=
  if !((R.xs col).x col && !(R.xs col).z col) then [sInstr col] else []

/-- All three normalization stages, each consulting the state produced by
the previous one. -/
def normGates {n : Nat} (col : Fin n) (R : Tab n) : List CircuitInstruction :=
  ng1 col R ++
    ng2 col (applyOps (ng1 col R) R) ++
    ng3 col (applyOps (ng2 col (applyOps (ng1 col R) R))
      (applyOps (ng1 col R) R))

/-- Gates clearing the image of `X_col` at position `q`: rotate the local
Pauli to X (S kills Y's Z part, H turns Z into X), then cancel it against
the diagonal X with CX(col, q). -/
def clearXq {n : Nat} (col q : Fin n) (P1 : Pauli n) :
    List CircuitInstruction :=
  if P1.z q then
    (if P1.x q then [sInstr q] else [hInstr q]) ++ [cxInstr col q]
  else if P1.x q then [cxInstr col q]
  else []

/-- Gates clearing the image of `Z_col` at position `q`: rotate the local
Pauli to Z (S·H turns Y into Z, H turns X into Z), then cancel it against
the diagonal Z with CX(q, col). -/
def clearZq {n : Nat} (col q : Fin n) (P2 : Pauli n) :
    List CircuitInstruction :=
  if P2.x q then
    (if P2.z q then [sInstr q, hInstr q] else [hInstr q]) ++ [cxInstr q col]
  else if P2.z q then [cxInstr q col]
  else []

/-- The loop clearing the off-diagonal part of the image of `X_col`,
consulting the current state at each position. -/
def clearXLoop {n : Nat} (col : Fin n) :
    List (Fin n) → Tab n → List CircuitInstruction
  | [], _ => []
  | q :: qs, R =>
      clearXq col q (R.xs col) ++
        clearXLoop col qs (applyOps (clearXq col q (R.xs col)) R)

/-- The loop clearing the off-diagonal part of the image of `Z_col`. -/
def clearZLoop {n : Nat} (col : Fin n) :
    List (Fin n) → Tab n → List CircuitInstruction
  | [], _ => []
  | q :: qs, R =>
      clearZq col q (R.zs col) ++
        clearZLoop col qs (applyOps (clearZq col q (R.zs col)) R)

/-- The row positions strictly after `col`, in increasing order. -/
def tailCols {n : Nat} (col : Fin n) : List (Fin n) :=
  (List.finRange n).filter fun q => decide (col < q)

/-- All gates processing one column: move the pivot onto the diagonal,
normalize the diagonal cell to X/Z, then clear the off-diagonal X and Z
parts. -/
def colGates {n : Nat} (col : Fin n) (R : Tab n) : List CircuitInstruction :=
  swapGates col (findPivot col R) ++
    normGates col (applyOps (swapGates col (findPivot col R)) R) ++
    clearXLoop col (tailCols col)
      (applyOps (normGates col (applyOps (swapGates col (findPivot col R)) R))
        (applyOps (swapGates col (findPivot col R)) R)) ++
    clearZLoop col (tailCols col)
      (applyOps
        (clearXLoop col (tailCols col)
          (applyOps
            (normGates col (applyOps (swapGates col (findPivot col R)) R))
            (applyOps (swapGates col (findPivot col R)) R)))
        (applyOps
          (normGates col (applyOps (swapGates col (findPivot col R)) R))
          (applyOps (swapGates col (findPivot col R)) R)))

/-- The column-by-column elimination loop. -/
def elimLoop {n : Nat} : List (Fin n) → Tab n → List CircuitInstruction
  | [], _ => []
  | col :: cols, R =>
      colGates col R ++ elimLoop cols (applyOps (colGates col R) R)

/-- The sign fixes for one column: S·S (a Z conjugation) flips the sign of
the row with X on the diagonal, H·S·S·H (an X conjugation) flips the sign
of the row with Z on the diagonal. -/
def sgCol {n : Nat} (col : Fin n) (R : Tab n) : List CircuitInstruction :=
  (if (R.xs col).neg then [sInstr col, sInstr col] else []) ++
    (if (R.zs col).neg then
      [hInstr col, sInstr col, sInstr col, hInstr col] else [])

/-- The sign-fixing gates for all columns. -/
def signGates {n : Nat} (R : Tab n) : List CircuitInstruction :=
  (List.finRange n).flatMap fun col => sgCol col R

/-- A row that is exactly `±X_c`: the X mask is the unit vector at `c` and
the Z mask is zero (the sign is unconstrained). -/
def isUnitXRow {n : Nat} (c : Fin n) (P : Pauli n) : Prop :=
  P.x = (fun j => decide (j = c)) ∧ P.z = fun _ => false

/-- A row that is exactly `±Z_c`. -/
def isUnitZRow {n : Nat} (c : Fin n) (P : Pauli n) : Prop :=
  P.x = (fun _ => false) ∧ P.z = fun j => decide (j = c)

/-- The invariant of the elimination loop: every already-processed column
`c < m` carries exactly `±X_c` and `±Z_c`. -/
def unitsBelow {n : Nat} (m : Nat) (R : Tab n) : Prop :=
  ∀ c : Fin n, c.val < m → isUnitXRow c (R.xs c) ∧ isUnitZRow c (R.zs c)

/-- All targets of an instruction lie at or above position `m`. -/
def TargetsGE (m : Nat) (op : CircuitInstruction) : Prop :=
  ∀ v ∈ op.targets, m ≤ v

/-- Exchange of two qubit positions in a Pauli (the action of a SWAP). -/
def swapP {n : Nat} (p c : Fin n) (P : Pauli n) : Pauli n :=
  ⟨P.neg,
   Function.update (Function.update P.x p (P.x c)) c (P.x p),
   Function.update (Function.update P.z p (P.z c)) c (P.z p)⟩

/-- The shape of every instruction the elimination synthesizer emits. -/
def Emitted {n : Nat} (op : CircuitInstruction) : Prop :=
  (∃ q : Fin n, op = sInstr q) ∨ (∃ q : Fin n, op = hInstr q) ∨
    (∃ c t : Fin n, c ≠ t ∧ op = cxInstr c t)

/-- The full gate sequence reducing the tableau to the identity: the
elimination loop over all columns followed by the sign fixes. -/
def elimGates {n : Nat} (T : Tab n) : List CircuitInstruction :=
  elimLoop (List.finRange n) T ++
    signGates (applyOps (elimLoop (List.finRange n) T) T)

/-- Modelled from the spec: `tableau_to_circuit(T, "elimination")` — the
recorded reduction gates, inverted and reversed, so that compiling the
result reproduces exactly `T` (same rows, same signs). -/
def tableau_to_circuit_elimination {n : Nat} (T : Tab n) : Circuit :=
  (elimGates T).reverse.flatMap invInstr

/-!
## Theorems
-/

theorem floor_lg2_eq_log2 (value : Nat) : floor_lg2 value = Nat.log2 value := by
  induction value using Nat.strong_induction_on with
  | _ v ih =>
    rw [floor_lg2, Nat.log2]
    by_cases h : v > 1
    · have hv : v >>> 1 < v := by
        simp only [Nat.shiftRight_eq_div_pow, Nat.pow_one]; omega
      rw [if_pos h, if_pos (by omega), ih _ hv]
      simp [Nat.shiftRight_eq_div_pow]
    · rw [if_neg h, if_neg (by omega)]

theorem and_pred_eq_zero_iff (v : Nat) (hv : v ≠ 0) :
    v &&& (v - 1) = 0 ↔ ∃ k, v = 2 ^ k := by
  induction v using Nat.strong_induction_on with
  | _ v ih =>
    rcases Nat.lt_or_ge v 2 with h2 | h2
    · interval_cases v
      · omega
      · exact ⟨fun _ => ⟨0, rfl⟩, fun _ => by decide⟩
    · rcases Nat.even_or_odd v with he | ho
      · obtain ⟨a, ha⟩ := he
        have hvv : v = 2 * a := by omega
        have ha1 : a ≥ 1 := by omega
        have hmod : (v &&& (v - 1)) % 2 = 0 := by
          rcases Nat.mod_two_eq_zero_or_one (v &&& (v - 1)) with h | h
          · exact h
          · rw [Nat.and_mod_two_eq_one] at h
            omega
        have hdiv : (v &&& (v - 1)) / 2 = a &&& (a - 1) := by
          rw [Nat.and_div_two]
          congr 1 <;> omega
        have hrec : a &&& (a - 1) = 0 ↔ ∃ k, a = 2 ^ k :=
          ih a (by omega) (by omega)
        constructor
        · intro h0
          have : a &&& (a - 1) = 0 := by omega
          obtain ⟨k, hk⟩ := hrec.mp this
          exact ⟨k + 1, by rw [hvv, hk, Nat.pow_succ]; ring⟩
        · rintro ⟨k, hk⟩
          have hk1 : k ≥ 1 := by
            by_contra hc
            interval_cases k <;> omega
          have hak : a = 2 ^ (k - 1) := by
            have : 2 ^ k = 2 * 2 ^ (k - 1) := by
              conv_lhs => rw [show k = (k - 1) + 1 by omega]
              rw [Nat.pow_succ]; ring
            omega
          have := hrec.mpr ⟨k - 1, hak⟩
          omega
      · obtain ⟨a, ha⟩ := ho
        have ha1 : a ≥ 1 := by omega
        constructor
        · intro h0
          exfalso
          have hdiv : (v &&& (v - 1)) / 2 = a &&& a := by
            rw [Nat.and_div_two]
            congr 1 <;> omega
          rw [Nat.and_self] at hdiv
          omega
        · rintro ⟨k, hk⟩
          exfalso
          rcases Nat.eq_zero_or_pos k with rfl | hkpos
          · simp at hk; omega
          · have : 2 ∣ 2 ^ k := dvd_pow_self 2 (by omega)
            rw [← hk] at this
            omega

/-- **C10**: `is_power_of_2 value` is true exactly when `value` is a power of
two (in particular it is false at 0), and for `value ≥ 1` the result of
`floor_lg2 value` is the greatest `k` with `2 ^ k ≤ value`, while
`floor_lg2 0 = 0` rather than an error. -/
theorem is_power_of_2_and_floor_lg2_spec (value : Nat) :
    (is_power_of_2 value = true ↔ ∃ k, value = 2 ^ k) ∧
    is_power_of_2 0 = false ∧
    floor_lg2 0 = 0 ∧
    (1 ≤ value →
      2 ^ floor_lg2 value ≤ value ∧ ∀ k, 2 ^ k ≤ value → k ≤ floor_lg2 value) := by
  refine ⟨?_, by decide, by rw [floor_lg2]; simp, ?_⟩
  · rcases Nat.eq_zero_or_pos value with rfl | hpos
    · constructor
      · intro h
        exact absurd h (by decide)
      · rintro ⟨k, hk⟩
        exfalso
        have := Nat.pos_pow_of_pos (n := 2) k (by omega)
        omega
    · unfold is_power_of_2
      have h1 : (value != 0) = true := by
        simp only [bne_iff_ne, ne_eq]; omega
      rw [h1, Bool.true_and, beq_iff_eq]
      exact and_pred_eq_zero_iff value (by omega)
  · intro h1
    rw [floor_lg2_eq_log2]
    constructor
    · exact (Nat.le_log2 (by omega)).mp (Nat.le_refl _)
    · intro k hk
      exact (Nat.le_log2 (by omega)).mpr hk

/-- Witness for C10 at the concrete input 8. -/
theorem is_power_of_2_and_floor_lg2_spec_witness :
    (1 : Nat) ≤ 8 ∧
      (2 ^ floor_lg2 8 ≤ 8 ∧ ∀ k, 2 ^ k ≤ 8 → k ≤ floor_lg2 8) :=
  ⟨by decide, (is_power_of_2_and_floor_lg2_spec 8).2.2.2 (by decide)⟩

theorem chunksGo_fuel_irrel (step : Nat) (h1 : 1 ≤ step) :
    ∀ (fuel : Nat) (l : List Nat), l.length ≤ fuel →
      chunksGo step fuel l = chunksGo step l.length l := by
  intro fuel
  induction fuel using Nat.strong_induction_on with
  | _ fuel ih =>
    intro l hl
    cases fuel with
    | zero =>
      have h0 : l = [] := List.eq_nil_of_length_eq_zero (by omega)
      subst h0; rfl
    | succ f =>
      cases l with
      | nil => rfl
      | cons x xs =>
        simp only [List.length_cons] at hl
        simp only [chunksGo, List.length_cons]
        have hdl : (List.drop step (x :: xs)).length ≤ xs.length := by
          simp only [List.length_drop, List.length_cons]
          omega
        rw [ih f (by omega) _ (by omega), ih xs.length (by omega) _ (by omega)]

theorem chunkList_nil (step : Nat) : chunkList step [] = [] := rfl

theorem chunkList_cons (step : Nat) (h1 : 1 ≤ step) (l : List Nat)
    (hl : l ≠ []) :
    chunkList step l = l.take step :: chunkList step (l.drop step) := by
  cases l with
  | nil => exact absurd rfl hl
  | cons x xs =>
    show chunksGo step (xs.length + 1) (x :: xs) = _
    simp only [chunksGo]
    rw [chunksGo_fuel_irrel step h1 xs.length _
      (by simp only [List.length_drop, List.length_cons]; omega)]
    rfl

theorem chunkList_of_length_eq (step : Nat) (l : List Nat)
    (h1 : 1 ≤ step) (h : l.length = step) : chunkList step l = [l] := by
  have hl : l ≠ [] := by
    intro hn
    rw [hn] at h
    simp only [List.length_nil] at h
    omega
  rw [chunkList_cons step h1 l hl, List.take_of_length_le (by omega),
    List.drop_of_length_le (by omega), chunkList_nil]

theorem chunkList_append (step : Nat) (h1 : 1 ≤ step) :
    ∀ (n : Nat) (l₁ l₂ : List Nat), l₁.length = n → step ∣ l₁.length →
      chunkList step (l₁ ++ l₂) = chunkList step l₁ ++ chunkList step l₂ := by
  intro n
  induction n using Nat.strong_induction_on with
  | _ n ih =>
    intro l₁ l₂ hn hdvd
    cases l₁ with
    | nil => simp [chunkList_nil]
    | cons x xs =>
      have hlen : step ≤ (x :: xs).length := by
        rcases hdvd with ⟨c, hc⟩
        have hc0 : c ≠ 0 := by
          intro hc0
          rw [hc0, Nat.mul_zero] at hc
          simp only [List.length_cons] at hc
          omega
        have hmul : step * 1 ≤ step * c := Nat.mul_le_mul_left step (by omega)
        omega
      rw [chunkList_cons step h1 _ (by simp),
        chunkList_cons step h1 (x :: xs) (by simp),
        List.take_append_of_le_length hlen,
        List.drop_append_of_le_length hlen]
      have hdl : ((x :: xs).drop step).length = (x :: xs).length - step := by
        simp [List.length_drop]
      rw [ih ((x :: xs).drop step).length
        (by rw [hdl]; simp only [List.length_cons] at hn ⊢; omega)
        _ l₂ rfl (by rw [hdl]; exact Nat.dvd_sub' hdvd (Nat.dvd_refl step))]
      simp

theorem chunkList_length_mem (step : Nat) (h1 : 1 ≤ step) :
    ∀ (n : Nat) (l : List Nat), l.length = n → step ∣ l.length →
      ∀ ch ∈ chunkList step l, ch.length = step := by
  intro n
  induction n using Nat.strong_induction_on with
  | _ n ih =>
    intro l hn hdvd ch hch
    cases l with
    | nil => simp [chunkList_nil] at hch
    | cons x xs =>
      have hlen : step ≤ (x :: xs).length := by
        rcases hdvd with ⟨c, hc⟩
        have hc0 : c ≠ 0 := by
          intro hc0
          rw [hc0, Nat.mul_zero] at hc
          simp only [List.length_cons] at hc
          omega
        have hmul : step * 1 ≤ step * c := Nat.mul_le_mul_left step (by omega)
        omega
      rw [chunkList_cons step h1 _ (by simp)] at hch
      rcases List.mem_cons.mp hch with h | h
      · subst h
        simp only [List.length_take]
        omega
      · have hdl : ((x :: xs).drop step).length = (x :: xs).length - step := by
          simp [List.length_drop]
        exact ih ((x :: xs).drop step).length
          (by rw [hdl]; simp only [List.length_cons] at hn ⊢; omega)
          _ rfl (by rw [hdl]; exact Nat.dvd_sub' hdvd (Nat.dvd_refl step)) ch h

theorem inv_emit_loop_eq (g : Nat) (a : List Int) (t : List Nat) (step : Nat)
    (h1 : 1 ≤ step) :
    ∀ k fuel, k ≤ fuel → step ∣ k → k ≤ t.length →
      inv_emit_loop g a t step fuel k =
        (chunkList step (t.take k)).reverse.map fun tt => ⟨g, tt, a⟩ := by
  intro k
  induction k using Nat.strong_induction_on with
  | _ k ih =>
    intro fuel hfuel hdvd hk
    cases k with
    | zero =>
      cases fuel with
      | zero => simp [inv_emit_loop, chunkList_nil]
      | succ f => simp [inv_emit_loop, chunkList_nil]
    | succ m =>
      cases fuel with
      | zero => omega
      | succ f =>
        have hstep : step ≤ m + 1 := by
          rcases hdvd with ⟨c, hc⟩
          have hc0 : c ≠ 0 := by
            intro hc0
            rw [hc0, Nat.mul_zero] at hc
            omega
          have hmul : step * 1 ≤ step * c := Nat.mul_le_mul_left step (by omega)
          omega
        have hdvd' : step ∣ m + 1 - step :=
          Nat.dvd_sub' hdvd (Nat.dvd_refl step)
        simp only [inv_emit_loop]
        rw [ih (m + 1 - step) (by omega) f (by omega) hdvd' (by omega)]
        have hseg : ((t.drop (m + 1 - step)).take step).length = step := by
          simp only [List.length_take, List.length_drop]
          omega
        have hsplit : t.take (m + 1) =
            t.take (m + 1 - step) ++ (t.drop (m + 1 - step)).take step := by
          conv_lhs => rw [show m + 1 = (m + 1 - step) + step by omega]
          exact List.take_add t (m + 1 - step) step
        rw [hsplit,
          chunkList_append step h1 (t.take (m + 1 - step)).length _ _ rfl
            (by
              simp only [List.length_take]
              rw [show min (m + 1 - step) t.length = m + 1 - step by omega]
              exact hdvd'),
          chunkList_of_length_eq step _ h1 hseg]
        simp [List.reverse_append]

theorem unitary_circuit_inverse_fold (gd : Nat → GateData) :
    ∀ (l : List CircuitInstruction) (acc : List CircuitInstruction),
      (∀ op ∈ l, (gd op.gate_type).is_unitary = true) →
      l.foldlM (inv_fold_step gd) acc =
        Except.ok (acc ++ l.flatMap fun op => inv_block gd op) := by
  intro l
  induction l with
  | nil =>
    intro acc _
    simp only [List.foldlM_nil, List.flatMap_nil, List.append_nil]
    rfl
  | cons op l ih =>
    intro acc hU
    have hop : (gd op.gate_type).is_unitary = true := hU op (by simp)
    have hstep : inv_fold_step gd acc op =
        Except.ok (acc ++ inv_block gd op) := by
      unfold inv_fold_step
      rw [hop]
      rfl
    rw [List.foldlM_cons, hstep]
    show List.foldlM (inv_fold_step gd) (acc ++ inv_block gd op) l = _
    rw [ih _ (fun o ho => hU o (by simp [ho]))]
    simp [List.flatMap_cons, List.append_assoc]

theorem unitary_circuit_inverse_eq (gd : Nat → GateData) (c : Circuit)
    (hU : ∀ op ∈ c, (gd op.gate_type).is_unitary = true)
    (hEven : ∀ op ∈ c, stepOf gd op ∣ op.targets.length) :
    unitary_circuit_inverse gd c = Except.ok (invSpec gd c) := by
  unfold unitary_circuit_inverse invSpec
  rw [unitary_circuit_inverse_fold gd c.reverse []
    (fun op hop => hU op (List.mem_reverse.mp hop))]
  congr 1
  rw [List.nil_append]
  apply List.flatMap_congr
  intro op hop
  have hop' : op ∈ c := List.mem_reverse.mp hop
  have hstep : 1 ≤ stepOf gd op := by
    unfold stepOf
    split
    · omega
    · omega
  unfold inv_block
  rw [inv_emit_loop_eq _ _ _ _ hstep op.targets.length op.targets.length
    (Nat.le_refl _) (hEven op hop') (Nat.le_refl _), List.take_length]
/-- **C3**: on an all-unitary circuit, `unitary_circuit_inverse` walks the
instructions in reverse order, replaces each gate by its inverse from the
gate table, and emits each instruction's target blocks — pairs for
pair-targeting gates, single targets otherwise — in reverse block order
while keeping the order inside each block. -/
theorem unitary_circuit_inverse_reverses_pairs (gd : Nat → GateData)
    (c : Circuit)
    (hU : ∀ op ∈ c, (gd op.gate_type).is_unitary = true)
    (hEven : ∀ op ∈ c, (gd op.gate_type).targets_pairs = true →
      2 ∣ op.targets.length) :
    unitary_circuit_inverse gd c = Except.ok
      (c.reverse.flatMap fun op =>
        (chunkList (stepOf gd op) op.targets).reverse.map fun t =>
          ⟨(gd op.gate_type).inverse, t, op.args⟩) :=
  unitary_circuit_inverse_eq gd c hU (fun op hop => by
    unfold stepOf
    by_cases hp : (gd op.gate_type).targets_pairs = true
    · rw [if_pos hp]; exact hEven op hop hp
    · rw [if_neg hp]; exact Nat.one_dvd _)

/-- Witness for C3 on the sample table and circuit. -/
theorem unitary_circuit_inverse_reverses_pairs_witness :
    (∀ op ∈ cSample, (gdSample op.gate_type).is_unitary = true) ∧
    (∀ op ∈ cSample, (gdSample op.gate_type).targets_pairs = true →
      2 ∣ op.targets.length) ∧
    unitary_circuit_inverse gdSample cSample = Except.ok
      (cSample.reverse.flatMap fun op =>
        (chunkList (stepOf gdSample op) op.targets).reverse.map fun t =>
          ⟨(gdSample op.gate_type).inverse, t, op.args⟩) :=
  ⟨by decide, by decide,
    unitary_circuit_inverse_reverses_pairs gdSample cSample
      (by decide) (by decide)⟩

theorem inverse_fold_error (gd : Nat → GateData) :
    ∀ (l : List CircuitInstruction) (acc : List CircuitInstruction),
      (∃ op ∈ l, (gd op.gate_type).is_unitary = false) →
      l.foldlM (inv_fold_step gd) acc = Except.error "Not unitary" := by
  intro l
  induction l with
  | nil =>
    intro acc h
    simp at h
  | cons op l ih =>
    intro acc h
    by_cases hop : (gd op.gate_type).is_unitary = true
    · have hstep : inv_fold_step gd acc op =
          Except.ok (acc ++ inv_block gd op) := by
        unfold inv_fold_step
        rw [hop]
        rfl
      rw [List.foldlM_cons, hstep]
      show List.foldlM (inv_fold_step gd) (acc ++ inv_block gd op) l = _
      apply ih
      rcases h with ⟨o, ho, hbad⟩
      rcases List.mem_cons.mp ho with rfl | ho'
      · rw [hop] at hbad
        cases hbad
      · exact ⟨o, ho', hbad⟩
    · have hbad : (gd op.gate_type).is_unitary = false :=
        Bool.eq_false_iff.mpr hop
      have hstep : inv_fold_step gd acc op = Except.error "Not unitary" := by
        unfold inv_fold_step
        rw [hbad]
        rfl
      rw [List.foldlM_cons, hstep]
      rfl

/-- **C4**: when the circuit contains a non-unitary instruction
(measurement, reset or noise), `unitary_circuit_inverse` fails with the
not-invertible error, and no partial inverted circuit is returned to the
caller. -/
theorem unitary_circuit_inverse_not_invertible (gd : Nat → GateData)
    (c : Circuit) (h : ∃ op ∈ c, (gd op.gate_type).is_unitary = false) :
    (∃ msg, unitary_circuit_inverse gd c = Except.error msg) ∧
    ∀ out, unitary_circuit_inverse gd c ≠ Except.ok out := by
  have herr : unitary_circuit_inverse gd c = Except.error "Not unitary" := by
    unfold unitary_circuit_inverse
    apply inverse_fold_error
    rcases h with ⟨op, hop, hbad⟩
    exact ⟨op, List.mem_reverse.mpr hop, hbad⟩
  refine ⟨⟨"Not unitary", herr⟩, fun out hout => ?_⟩
  rw [herr] at hout
  cases hout

/-- Witness for C4: a single measurement-like instruction (gate 4 of the
sample table). -/
theorem unitary_circuit_inverse_not_invertible_witness :
    (∃ op ∈ [(⟨4, [0], []⟩ : CircuitInstruction)],
      (gdSample op.gate_type).is_unitary = false) ∧
    (∃ msg, unitary_circuit_inverse gdSample [⟨4, [0], []⟩] =
      Except.error msg) ∧
    ∀ out, unitary_circuit_inverse gdSample [⟨4, [0], []⟩] ≠ Except.ok out :=
  ⟨by decide,
    (unitary_circuit_inverse_not_invertible gdSample _ (by decide)).1,
    (unitary_circuit_inverse_not_invertible gdSample _ (by decide)).2⟩

theorem stepOf_dvd (gd : Nat → GateData) (op : CircuitInstruction)
    (h : (gd op.gate_type).targets_pairs = true → 2 ∣ op.targets.length) :
    stepOf gd op ∣ op.targets.length := by
  unfold stepOf
  by_cases hp : (gd op.gate_type).targets_pairs = true
  · rw [if_pos hp]
    exact h hp
  · rw [if_neg hp]
    exact Nat.one_dvd _

theorem stepOf_pos (gd : Nat → GateData) (op : CircuitInstruction) :
    1 ≤ stepOf gd op := by
  unfold stepOf
  split
  · omega
  · omega

theorem mem_invSpec (gd : Nat → GateData) (c : Circuit)
    (op' : CircuitInstruction) (h : op' ∈ invSpec gd c) :
    ∃ op ∈ c, op'.gate_type = (gd op.gate_type).inverse ∧
      op'.args = op.args ∧
      op'.targets ∈ chunkList (stepOf gd op) op.targets := by
  unfold invSpec at h
  rcases List.mem_flatMap.mp h with ⟨op, hop, hmem⟩
  rcases List.mem_map.mp hmem with ⟨t, ht, rfl⟩
  exact ⟨op, List.mem_reverse.mp hop, rfl, rfl, List.mem_reverse.mp ht⟩

theorem circuitAtoms_gate_mem (gd : Nat → GateData) (c : Circuit) :
    ∀ x ∈ circuitAtoms gd c, ∃ op ∈ c, x.1 = op.gate_type := by
  intro x hx
  unfold circuitAtoms at hx
  rcases List.mem_flatMap.mp hx with ⟨op, hop, hmem⟩
  rcases List.mem_map.mp hmem with ⟨t, ht, rfl⟩
  exact ⟨op, hop, rfl⟩

theorem circuitAtoms_invSpec (gd : Nat → GateData) (c : Circuit)
    (hEven : ∀ op ∈ c, stepOf gd op ∣ op.targets.length)
    (hPairs : ∀ op ∈ c,
      (gd (gd op.gate_type).inverse).targets_pairs =
        (gd op.gate_type).targets_pairs) :
    circuitAtoms gd (invSpec gd c) = invAtoms gd (circuitAtoms gd c) := by
  unfold circuitAtoms invSpec invAtoms
  rw [List.flatMap_assoc, List.map_flatMap, List.reverse_flatMap]
  apply List.flatMap_congr
  intro op hop
  have hop' : op ∈ c := List.mem_reverse.mp hop
  have hstep1 : 1 ≤ stepOf gd op := stepOf_pos gd op
  rw [List.flatMap_map]
  have hinner : ∀ t ∈ (chunkList (stepOf gd op) op.targets).reverse,
      (fun t : List Nat =>
        (chunkList
            (stepOf gd ⟨(gd op.gate_type).inverse, t, op.args⟩)
            t).map
          fun tt =>
            (((⟨(gd op.gate_type).inverse, t, op.args⟩ :
                CircuitInstruction)).gate_type, tt,
              (⟨(gd op.gate_type).inverse, t, op.args⟩ :
                CircuitInstruction).args)) t =
      [((gd op.gate_type).inverse, t, op.args)] := by
    intro t ht
    beta_reduce
    have htc : t ∈ chunkList (stepOf gd op) op.targets :=
      List.mem_reverse.mp ht
    have htlen : t.length = stepOf gd op :=
      chunkList_length_mem (stepOf gd op) hstep1 op.targets.length op.targets
        rfl (hEven op hop') t htc
    have hstep' : stepOf gd ⟨(gd op.gate_type).inverse, t, op.args⟩ =
        stepOf gd op := by
      unfold stepOf
      rw [show (⟨(gd op.gate_type).inverse, t, op.args⟩ :
        CircuitInstruction).gate_type = (gd op.gate_type).inverse from rfl]
      rw [hPairs op hop']
    rw [hstep', chunkList_of_length_eq (stepOf gd op) t hstep1 htlen]
    rfl
  rw [List.flatMap_congr hinner]
  rw [show (fun t : List Nat => [((gd op.gate_type).inverse, t, op.args)]) =
    (fun t : List Nat =>
      [(fun tt : List Nat => ((gd op.gate_type).inverse, tt, op.args)) t])
    from rfl]
  rw [← List.map_eq_flatMap]
  simp only [Function.comp]
  rw [List.map_reverse, List.map_map]
  rfl

theorem invAtoms_invAtoms (gd : Nat → GateData)
    (l : List (Nat × List Nat × List Int))
    (h : ∀ x ∈ l, (gd (gd x.1).inverse).inverse = x.1) :
    invAtoms gd (invAtoms gd l) = l := by
  unfold invAtoms
  rw [List.map_reverse, List.reverse_reverse, List.map_map]
  have : ∀ x ∈ l,
      ((fun x : Nat × List Nat × List Int =>
          ((gd x.1).inverse, x.2.1, x.2.2)) ∘
        fun x : Nat × List Nat × List Int =>
          ((gd x.1).inverse, x.2.1, x.2.2)) x = id x := by
    intro x hx
    simp only [Function.comp, id]
    rw [h x hx]
  rw [List.map_congr_left this, List.map_id]

/-- **C9**: inverting an all-unitary circuit twice yields a circuit with
exactly the same atomic gate applications in the same order — hence a
circuit implementing the same operation (though not necessarily the same
instruction list: long instructions come back split into blocks). -/
theorem unitary_circuit_inverse_involutive (gd : Nat → GateData) (c : Circuit)
    (hU : ∀ op ∈ c, (gd op.gate_type).is_unitary = true)
    (hEven : ∀ op ∈ c, (gd op.gate_type).targets_pairs = true →
      2 ∣ op.targets.length)
    (hInv : ∀ op ∈ c,
      (gd (gd op.gate_type).inverse).is_unitary = true ∧
      (gd (gd op.gate_type).inverse).inverse = op.gate_type ∧
      (gd (gd op.gate_type).inverse).targets_pairs =
        (gd op.gate_type).targets_pairs) :
    ∃ c₁ c₂, unitary_circuit_inverse gd c = Except.ok c₁ ∧
      unitary_circuit_inverse gd c₁ = Except.ok c₂ ∧
      circuitAtoms gd c₂ = circuitAtoms gd c := by
  have hEven' : ∀ op ∈ c, stepOf gd op ∣ op.targets.length :=
    fun op hop => stepOf_dvd gd op (hEven op hop)
  have hmem : ∀ op' ∈ invSpec gd c,
      ∃ op ∈ c, op'.gate_type = (gd op.gate_type).inverse ∧
        op'.args = op.args ∧
        op'.targets ∈ chunkList (stepOf gd op) op.targets :=
    fun op' h => mem_invSpec gd c op' h
  have hU₁ : ∀ op' ∈ invSpec gd c, (gd op'.gate_type).is_unitary = true := by
    intro op' h
    rcases hmem op' h with ⟨op, hop, hg, _, _⟩
    rw [hg]
    exact (hInv op hop).1
  have hstepEq : ∀ op' ∈ invSpec gd c,
      ∃ op ∈ c, stepOf gd op' = stepOf gd op ∧
        op'.targets.length = stepOf gd op := by
    intro op' h
    rcases hmem op' h with ⟨op, hop, hg, _, htmem⟩
    refine ⟨op, hop, ?_, ?_⟩
    · unfold stepOf
      rw [hg, (hInv op hop).2.2]
    · exact chunkList_length_mem (stepOf gd op) (stepOf_pos gd op)
        op.targets.length op.targets rfl (hEven' op hop) op'.targets htmem
  have hEven₁ : ∀ op' ∈ invSpec gd c,
      stepOf gd op' ∣ op'.targets.length := by
    intro op' h
    rcases hstepEq op' h with ⟨op, _, hs, hl⟩
    rw [hs, hl]
  have hPairs : ∀ op ∈ c,
      (gd (gd op.gate_type).inverse).targets_pairs =
        (gd op.gate_type).targets_pairs :=
    fun op hop => (hInv op hop).2.2
  have hPairs₁ : ∀ op' ∈ invSpec gd c,
      (gd (gd op'.gate_type).inverse).targets_pairs =
        (gd op'.gate_type).targets_pairs := by
    intro op' h
    rcases hmem op' h with ⟨op, hop, hg, _, _⟩
    rw [hg, (hInv op hop).2.1, ((hInv op hop).2.2).symm]
  refine ⟨invSpec gd c, invSpec gd (invSpec gd c),
    unitary_circuit_inverse_eq gd c hU hEven',
    unitary_circuit_inverse_eq gd (invSpec gd c) hU₁ hEven₁, ?_⟩
  rw [circuitAtoms_invSpec gd (invSpec gd c) hEven₁ hPairs₁,
    circuitAtoms_invSpec gd c hEven' hPairs]
  apply invAtoms_invAtoms
  intro x hx
  rcases circuitAtoms_gate_mem gd c x hx with ⟨op, hop, hg⟩
  rw [hg]
  exact (hInv op hop).2.1

/-- Witness for C9 on the sample table and circuit. -/
theorem unitary_circuit_inverse_involutive_witness :
    (∀ op ∈ cSample, (gdSample op.gate_type).is_unitary = true) ∧
    (∀ op ∈ cSample, (gdSample op.gate_type).targets_pairs = true →
      2 ∣ op.targets.length) ∧
    (∀ op ∈ cSample,
      (gdSample (gdSample op.gate_type).inverse).is_unitary = true ∧
      (gdSample (gdSample op.gate_type).inverse).inverse = op.gate_type ∧
      (gdSample (gdSample op.gate_type).inverse).targets_pairs =
        (gdSample op.gate_type).targets_pairs) ∧
    ∃ c₁ c₂, unitary_circuit_inverse gdSample cSample = Except.ok c₁ ∧
      unitary_circuit_inverse gdSample c₁ = Except.ok c₂ ∧
      circuitAtoms gdSample c₂ = circuitAtoms gdSample cSample :=
  ⟨by decide, by decide, by decide,
    unitary_circuit_inverse_involutive gdSample cSample
      (by decide) (by decide) (by decide)⟩

theorem ctt_step_error_unsupported {σ : Type} (gd : Nat → GateData)
    (applyU : CircuitInstruction → σ → σ) (iN iM iR : Bool) (acc : σ)
    (op : CircuitInstruction) (e : ConvError)
    (h : ctt_step gd applyU iN iM iR acc op = Except.error e) :
    e = ConvError.unsupported := by
  unfold ctt_step at h
  split_ifs at h <;> first
    | exact Except.noConfusion h
    | (injection h with h2; exact h2.symm)

theorem ctt_fold_error_unsupported {σ : Type} (gd : Nat → GateData)
    (applyU : CircuitInstruction → σ → σ) (iN iM iR : Bool) :
    ∀ (l : List CircuitInstruction) (init : σ) (e : ConvError),
      l.foldlM (ctt_step gd applyU iN iM iR) init = Except.error e →
      e = ConvError.unsupported := by
  intro l
  induction l with
  | nil =>
    intro init e h
    exact Except.noConfusion h
  | cons op l ih =>
    intro init e h
    rw [List.foldlM_cons] at h
    cases hs : ctt_step gd applyU iN iM iR init op with
    | error e' =>
      rw [hs] at h
      have h2 : (Except.error e' : Except ConvError σ) = Except.error e := h
      injection h2 with h3
      subst h3
      exact ctt_step_error_unsupported gd applyU iN iM iR init op e' hs
    | ok acc' =>
      rw [hs] at h
      exact ih acc' e h

theorem band_not_eq_false {a b : Bool} (h : a = true → b = true) :
    (a && !b) = false := by
  cases a
  · rfl
  · rw [h rfl]
    rfl

theorem ctt_step_skip {σ : Type} (gd : Nat → GateData)
    (applyU : CircuitInstruction → σ → σ) (iN iM iR : Bool) (acc : σ)
    (op : CircuitInstruction)
    (hnu : (gd op.gate_type).is_unitary = false)
    (hcls : (gd op.gate_type).is_noisy = true ∨
      (gd op.gate_type).produces_results = true ∨
      (gd op.gate_type).is_reset = true)
    (hN : (gd op.gate_type).is_noisy = true → iN = true)
    (hM : (gd op.gate_type).produces_results = true → iM = true)
    (hR : (gd op.gate_type).is_reset = true → iR = true) :
    ctt_step gd applyU iN iM iR acc op = Except.ok acc := by
  unfold ctt_step
  rw [if_neg (by rw [hnu]; exact Bool.false_ne_true),
    if_neg (by rw [band_not_eq_false hN]; exact Bool.false_ne_true),
    if_neg (by rw [band_not_eq_false hM]; exact Bool.false_ne_true),
    if_neg (by rw [band_not_eq_false hR]; exact Bool.false_ne_true),
    if_pos (by
      rcases hcls with h | h | h
      · rw [h]
        rfl
      · rw [h]
        simp
      · rw [h]
        simp)]

theorem ctt_step_err {σ : Type} (gd : Nat → GateData)
    (applyU : CircuitInstruction → σ → σ) (iN iM iR : Bool) (acc : σ)
    (op : CircuitInstruction)
    (hnu : (gd op.gate_type).is_unitary = false)
    (hbad : ((gd op.gate_type).is_noisy = true ∧ iN = false) ∨
      ((gd op.gate_type).produces_results = true ∧ iM = false) ∨
      ((gd op.gate_type).is_reset = true ∧ iR = false)) :
    ctt_step gd applyU iN iM iR acc op = Except.error ConvError.unsupported := by
  unfold ctt_step
  rw [if_neg (by rw [hnu]; exact Bool.false_ne_true)]
  cases h1 : ((gd op.gate_type).is_noisy && !iN) with
  | true => rfl
  | false =>
    cases h2 : ((gd op.gate_type).produces_results && !iM) with
    | true => rfl
    | false =>
      cases h3 : ((gd op.gate_type).is_reset && !iR) with
      | true => rfl
      | false =>
        exfalso
        rcases hbad with ⟨ha, hb⟩ | ⟨ha, hb⟩ | ⟨ha, hb⟩
        · rw [ha, hb] at h1
          exact absurd h1 (by decide)
        · rw [ha, hb] at h2
          exact absurd h2 (by decide)
        · rw [ha, hb] at h3
          exact absurd h3 (by decide)

/-- **C5**: compiling a circuit that contains a noise / measurement / reset
instruction whose corresponding ignore flag is unset fails with the
unsupported-instruction error; when every class the instruction belongs to
has its ignore flag set, the instruction is skipped and leaves the
accumulated tableau unchanged. -/
theorem circuit_to_tableau_flag_handling {σ : Type} (gd : Nat → GateData)
    (applyU : CircuitInstruction → σ → σ) (iN iM iR : Bool)
    (c₁ c₂ : Circuit) (op : CircuitInstruction) (init : σ)
    (hnu : (gd op.gate_type).is_unitary = false) :
    ((((gd op.gate_type).is_noisy = true ∧ iN = false) ∨
      ((gd op.gate_type).produces_results = true ∧ iM = false) ∨
      ((gd op.gate_type).is_reset = true ∧ iR = false)) →
      circuit_to_tableau gd applyU (c₁ ++ op :: c₂) iN iM iR init =
        Except.error ConvError.unsupported) ∧
    ((((gd op.gate_type).is_noisy = true ∨
       (gd op.gate_type).produces_results = true ∨
       (gd op.gate_type).is_reset = true) ∧
      ((gd op.gate_type).is_noisy = true → iN = true) ∧
      ((gd op.gate_type).produces_results = true → iM = true) ∧
      ((gd op.gate_type).is_reset = true → iR = true)) →
      circuit_to_tableau gd applyU (c₁ ++ op :: c₂) iN iM iR init =
        circuit_to_tableau gd applyU (c₁ ++ c₂) iN iM iR init) := by
  unfold circuit_to_tableau
  rw [List.foldlM_append, List.foldlM_append]
  cases hres : c₁.foldlM (ctt_step gd applyU iN iM iR) init with
  | error e =>
    have he : e = ConvError.unsupported :=
      ctt_fold_error_unsupported gd applyU iN iM iR c₁ init e hres
    subst he
    constructor
    · intro _
      rfl
    · intro _
      rfl
  | ok acc =>
    constructor
    · intro hbad
      show List.foldlM (ctt_step gd applyU iN iM iR) acc (op :: c₂) =
        Except.error ConvError.unsupported
      rw [List.foldlM_cons,
        ctt_step_err gd applyU iN iM iR acc op hnu hbad]
      rfl
    · rintro ⟨hcls, hN, hM, hR⟩
      show List.foldlM (ctt_step gd applyU iN iM iR) acc (op :: c₂) =
        List.foldlM (ctt_step gd applyU iN iM iR) acc c₂
      rw [List.foldlM_cons,
        ctt_step_skip gd applyU iN iM iR acc op hnu hcls hN hM hR]
      rfl

/-- Witness for C5: gate 5 (a noise channel in the sample table) makes the
compilation fail when `ignore_noise` is unset and is skipped when it is
set. -/
theorem circuit_to_tableau_flag_handling_witness :
    (gdSample (5 : Nat)).is_unitary = false ∧
    circuit_to_tableau gdSample applyCount
        ([⟨0, [0], []⟩] ++ ⟨5, [0], []⟩ :: [⟨1, [0], []⟩]) false false false 0 =
      Except.error ConvError.unsupported ∧
    circuit_to_tableau gdSample applyCount
        ([⟨0, [0], []⟩] ++ ⟨5, [0], []⟩ :: [⟨1, [0], []⟩]) true false false 0 =
      circuit_to_tableau gdSample applyCount
        ([⟨0, [0], []⟩] ++ [⟨1, [0], []⟩]) true false false 0 :=
  ⟨by decide,
    (circuit_to_tableau_flag_handling gdSample applyCount false false false
      [⟨0, [0], []⟩] [⟨1, [0], []⟩] ⟨5, [0], []⟩ 0 (by decide)).1
      (Or.inl ⟨by decide, rfl⟩),
    (circuit_to_tableau_flag_handling gdSample applyCount true false false
      [⟨0, [0], []⟩] [⟨1, [0], []⟩] ⟨5, [0], []⟩ 0 (by decide)).2
      ⟨Or.inl (by decide), fun _ => rfl, by decide, by decide⟩⟩

theorem s2t_step_skip (n : Nat) (acc : List PauliString) (v : PauliString)
    (hx : v.xs.length = n) (hz : v.zs.length = n)
    (hdep : is_redundant acc v = true) :
    s2t_step n true acc v = Except.ok acc := by
  unfold s2t_step
  rw [if_neg (by
    intro hcontra
    exact hcontra ⟨hx, hz⟩), if_pos hdep, if_pos rfl]

theorem s2t_step_fail (n : Nat) (acc : List PauliString) (v : PauliString)
    (hx : v.xs.length = n) (hz : v.zs.length = n)
    (hdep : is_redundant acc v = true) :
    s2t_step n false acc v = Except.error ConvError.redundant := by
  unfold s2t_step
  rw [if_neg (by
    intro hcontra
    exact hcontra ⟨hx, hz⟩), if_pos hdep]
  rfl

/-- **C6**: `stabilizers_to_tableau` processes rows in input order: a row
whose symplectic vector depends linearly on the already-accepted rows is
silently dropped (leaving the accepted rows unchanged) when
`allow_redundant` is set and raises the redundant-stabilizer error when it
is not; concretely, `{+XX, +ZZ}` with `allow_underconstrained = false`
yields exactly the Z-output rows `+XX, +ZZ`, and `{+XX, +XX}` with
`allow_redundant = false` fails with the redundancy error. -/
theorem stabilizers_to_tableau_redundancy :
    (∀ (n : Nat) (pre post : List PauliString) (v : PauliString)
      (acc : List PauliString), v.xs.length = n → v.zs.length = n →
      (acceptedRows n true pre = Except.ok acc →
        is_redundant acc v = true →
        acceptedRows n true (pre ++ v :: post) =
          acceptedRows n true (pre ++ post)) ∧
      (acceptedRows n false pre = Except.ok acc →
        is_redundant acc v = true →
        acceptedRows n false (pre ++ v :: post) =
          Except.error ConvError.redundant)) ∧
    (∀ ar : Bool, stabilizers_to_tableau [xxRow, zzRow] ar false =
      Except.ok [xxRow, zzRow]) ∧
    (∀ au : Bool, stabilizers_to_tableau [xxRow, xxRow] false au =
      Except.error ConvError.redundant) := by
  refine ⟨?_, ?_, ?_⟩
  · intro n pre post v acc hx hz
    constructor
    · intro hpre hdep
      unfold acceptedRows at hpre ⊢
      rw [List.foldlM_append, List.foldlM_append, hpre]
      show List.foldlM (s2t_step n true) acc (v :: post) =
        List.foldlM (s2t_step n true) acc post
      rw [List.foldlM_cons, s2t_step_skip n acc v hx hz hdep]
      rfl
    · intro hpre hdep
      unfold acceptedRows at hpre ⊢
      rw [List.foldlM_append, hpre]
      show List.foldlM (s2t_step n false) acc (v :: post) =
        Except.error ConvError.redundant
      rw [List.foldlM_cons, s2t_step_fail n acc v hx hz hdep]
      rfl
  · intro ar
    cases ar
    · rfl
    · rfl
  · intro au
    cases au
    · rfl
    · rfl

/-- Witness for C6: dropping a repeated `+XX` with `allow_redundant` set,
together with the two concrete scenarios. -/
theorem stabilizers_to_tableau_redundancy_witness :
    (xxRow.xs.length = 2 ∧ xxRow.zs.length = 2 ∧
      acceptedRows 2 true [xxRow] = Except.ok [xxRow] ∧
      is_redundant [xxRow] xxRow = true ∧
      acceptedRows 2 true ([xxRow] ++ xxRow :: []) =
        acceptedRows 2 true ([xxRow] ++ [])) ∧
    stabilizers_to_tableau [xxRow, zzRow] true false =
      Except.ok [xxRow, zzRow] ∧
    stabilizers_to_tableau [xxRow, xxRow] false true =
      Except.error ConvError.redundant :=
  ⟨⟨by decide, by decide, rfl, rfl,
    (stabilizers_to_tableau_redundancy.1 2 [xxRow] [] xxRow [xxRow]
      (by decide) (by decide)).1 rfl rfl⟩,
   stabilizers_to_tableau_redundancy.2.1 true,
   stabilizers_to_tableau_redundancy.2.2 true⟩

theorem Pauli_ext {n : Nat} {P Q : Pauli n} (h1 : P.neg = Q.neg)
    (h2 : P.x = Q.x) (h3 : P.z = Q.z) : P = Q := by
  cases P
  cases Q
  simp_all

theorem Tab_ext {n : Nat} {T S : Tab n} (h1 : T.xs = S.xs)
    (h2 : T.zs = S.zs) : T = S := by
  cases T
  cases S
  simp_all

theorem applyOps_nil {n : Nat} (T : Tab n) : applyOps [] T = T := rfl

theorem applyOps_cons {n : Nat} (op : CircuitInstruction)
    (ops : List CircuitInstruction) (T : Tab n) :
    applyOps (op :: ops) T = applyOps ops (applyInstr op T) := rfl

theorem applyOps_append {n : Nat} (l₁ l₂ : List CircuitInstruction)
    (T : Tab n) : applyOps (l₁ ++ l₂) T = applyOps l₂ (applyOps l₁ T) := by
  unfold applyOps
  rw [List.foldl_append]

theorem applyInstr_s {n : Nat} (q : Fin n) (T : Tab n) :
    applyInstr (sInstr q) T = mapRows (conjS q) T := by
  show (if h : q.val < n then mapRows (conjS ⟨q.val, h⟩) T else T) = _
  rw [dif_pos q.isLt]

theorem applyInstr_h {n : Nat} (q : Fin n) (T : Tab n) :
    applyInstr (hInstr q) T = mapRows (conjH q) T := by
  show (if h : q.val < n then mapRows (conjH ⟨q.val, h⟩) T else T) = _
  rw [dif_pos q.isLt]

theorem applyInstr_cx {n : Nat} (c t : Fin n) (hct : c ≠ t) (T : Tab n) :
    applyInstr (cxInstr c t) T = mapRows (conjCX c t) T := by
  show (if h : c.val < n ∧ t.val < n ∧ c.val ≠ t.val then
      mapRows (conjCX ⟨c.val, h.1⟩ ⟨t.val, h.2.1⟩) T else T) = _
  rw [dif_pos ⟨c.isLt, t.isLt, fun h => hct (Fin.val_injective h)⟩]

theorem mapRows_mapRows {n : Nat} (f g : Pauli n → Pauli n) (T : Tab n) :
    mapRows f (mapRows g T) = mapRows (fun P => f (g P)) T := rfl

theorem conjH_conjH {n : Nat} (q : Fin n) (P : Pauli n) :
    conjH q (conjH q P) = P := by
  apply Pauli_ext
  · simp only [conjH, Function.update_same]
    cases hx : P.x q <;> cases hz : P.z q <;> simp
  · simp only [conjH, Function.update_same, Function.update_idem,
      Function.update_eq_self]
  · simp only [conjH, Function.update_same, Function.update_idem,
      Function.update_eq_self]

theorem conjS_conjS {n : Nat} (q : Fin n) (P : Pauli n) :
    conjS q (conjS q P) = ⟨P.neg ^^ P.x q, P.x, P.z⟩ := by
  apply Pauli_ext
  · simp only [conjS, Function.update_same]
    cases hx : P.x q <;> cases hz : P.z q <;> simp
  · rfl
  · simp only [conjS, Function.update_same, Function.update_idem]
    cases hx : P.x q
    · simp
    · simp
  

theorem conjS_four {n : Nat} (q : Fin n) (P : Pauli n) :
    conjS q (conjS q (conjS q (conjS q P))) = P := by
  rw [conjS_conjS, conjS_conjS]
  apply Pauli_ext
  · show ((P.neg ^^ P.x q) ^^ P.x q) = P.neg
    rw [Bool.xor_assoc, Bool.xor_self, Bool.xor_false]
  · rfl
  · rfl

theorem conjCX_conjCX {n : Nat} (c t : Fin n) (hct : c ≠ t) (P : Pauli n) :
    conjCX c t (conjCX c t P) = P := by
  have htc : t ≠ c := Ne.symm hct
  apply Pauli_ext
  · simp only [conjCX, Function.update_same, Function.update_noteq hct,
      Function.update_noteq htc]
    cases h1 : P.x c <;> cases h2 : P.z t <;> cases h3 : P.x t <;>
      cases h4 : P.z c <;> simp
  · simp only [conjCX, Function.update_same, Function.update_noteq hct,
      Function.update_noteq htc, Function.update_idem]
    rw [Bool.xor_assoc, Bool.xor_self, Bool.xor_false,
      Function.update_eq_self]
  · simp only [conjCX, Function.update_same, Function.update_noteq hct,
      Function.update_noteq htc, Function.update_idem]
    rw [Bool.xor_assoc, Bool.xor_self, Bool.xor_false,
      Function.update_eq_self]

theorem conjCX_swap {n : Nat} (p col : Fin n) (hpc : p ≠ col) (P : Pauli n) :
    conjCX p col (conjCX col p (conjCX p col P)) = swapP p col P := by
  have hcp : col ≠ p := Ne.symm hpc
  apply Pauli_ext
  · simp only [conjCX, swapP, Function.update_same,
      Function.update_noteq hpc, Function.update_noteq hcp]
    cases h1 : P.x p <;> cases h2 : P.x col <;> cases h3 : P.z p <;>
      cases h4 : P.z col <;> simp
  · funext j
    by_cases hjp : j = p
    · subst hjp
      simp only [conjCX, swapP, Function.update_same,
        Function.update_noteq hpc, Function.update_noteq hcp]
      cases h1 : P.x j <;> cases h2 : P.x col <;> simp
    · by_cases hjc : j = col
      · subst hjc
        simp only [conjCX, swapP, Function.update_same,
          Function.update_noteq hpc, Function.update_noteq hcp]
        cases h1 : P.x p <;> cases h2 : P.x j <;> simp
      · simp only [conjCX, swapP, Function.update_noteq hjp,
          Function.update_noteq hjc]
  · funext j
    by_cases hjp : j = p
    · subst hjp
      simp only [conjCX, swapP, Function.update_same,
        Function.update_noteq hpc, Function.update_noteq hcp]
      cases h1 : P.z j <;> cases h2 : P.z col <;> simp
    · by_cases hjc : j = col
      · subst hjc
        simp only [conjCX, swapP, Function.update_same,
          Function.update_noteq hpc, Function.update_noteq hcp]
        cases h1 : P.z p <;> cases h2 : P.z j <;> simp
      · simp only [conjCX, swapP, Function.update_noteq hjp,
          Function.update_noteq hjc]

theorem conjH_fix {n : Nat} (q : Fin n) (P : Pauli n)
    (hx : P.x q = false) (hz : P.z q = false) : conjH q P = P := by
  apply Pauli_ext
  · simp [conjH, hx, hz]
  · simp only [conjH]
    rw [hz, ← hx, Function.update_eq_self]
  · simp only [conjH]
    rw [hx, ← hz, Function.update_eq_self]

theorem conjS_fix {n : Nat} (q : Fin n) (P : Pauli n)
    (hx : P.x q = false) : conjS q P = P := by
  apply Pauli_ext
  · simp [conjS, hx]
  · rfl
  · simp only [conjS]
    rw [hx, Bool.xor_false, Function.update_eq_self]

theorem conjCX_fix {n : Nat} (c t : Fin n) (P : Pauli n)
    (hxc : P.x c = false) (hzt : P.z t = false) : conjCX c t P = P := by
  apply Pauli_ext
  · simp [conjCX, hxc, hzt]
  · simp only [conjCX]
    rw [hxc, Bool.xor_false, Function.update_eq_self]
  · simp only [conjCX]
    rw [hzt, Bool.xor_false, Function.update_eq_self]

theorem conjZ_eq {n : Nat} (q : Fin n) (P : Pauli n) :
    conjS q (conjS q P) = ⟨P.neg ^^ P.x q, P.x, P.z⟩ :=
  conjS_conjS q P

theorem conjX_eq {n : Nat} (q : Fin n) (P : Pauli n) :
    conjH q (conjS q (conjS q (conjH q P))) = ⟨P.neg ^^ P.z q, P.x, P.z⟩ := by
  rw [conjS_conjS]
  apply Pauli_ext
  · show ((((P.neg ^^ (P.x q && P.z q)) ^^ Function.update P.x q (P.z q) q) ^^
      (Function.update P.x q (P.z q) q && Function.update P.z q (P.x q) q)))
      = (P.neg ^^ P.z q)
    rw [Function.update_same, Function.update_same]
    cases h1 : P.x q <;> cases h2 : P.z q <;> simp
  · show Function.update ((conjH q P).x) q ((conjH q P).z q) = P.x
    show Function.update (Function.update P.x q (P.z q)) q
      (Function.update P.z q (P.x q) q) = P.x
    rw [Function.update_same, Function.update_idem, Function.update_eq_self]
  · show Function.update ((conjH q P).z) q ((conjH q P).x q) = P.z
    show Function.update (Function.update P.z q (P.x q)) q
      (Function.update P.x q (P.z q) q) = P.z
    rw [Function.update_same, Function.update_idem, Function.update_eq_self]

theorem pairBit_conjH {n : Nat} (q : Fin n) (P Q : Pauli n) (i : Fin n) :
    pairBit (conjH q P) (conjH q Q) i = pairBit P Q i := by
  by_cases hiq : i = q
  · subst hiq
    simp only [pairBit, conjH, Function.update_same]
    cases h1 : P.x i <;> cases h2 : P.z i <;> cases h3 : Q.x i <;>
      cases h4 : Q.z i <;> simp
  · simp only [pairBit, conjH, Function.update_noteq hiq]

theorem pairBit_conjS {n : Nat} (q : Fin n) (P Q : Pauli n) (i : Fin n) :
    pairBit (conjS q P) (conjS q Q) i = pairBit P Q i := by
  by_cases hiq : i = q
  · subst hiq
    simp only [pairBit, conjS, Function.update_same]
    cases h1 : P.x i <;> cases h2 : P.z i <;> cases h3 : Q.x i <;>
      cases h4 : Q.z i <;> simp
  · simp only [pairBit, conjS, Function.update_noteq hiq]

theorem pairBit_conjCX_other {n : Nat} (c t : Fin n) (P Q : Pauli n)
    (i : Fin n) (hic : i ≠ c) (hit : i ≠ t) :
    pairBit (conjCX c t P) (conjCX c t Q) i = pairBit P Q i := by
  simp only [pairBit, conjCX, Function.update_noteq hic,
    Function.update_noteq hit]

theorem sum_eq_of_two {n : Nat} (f g : Fin n → ZMod 2) (c t : Fin n)
    (hct : c ≠ t) (hothers : ∀ i, i ≠ c → i ≠ t → f i = g i)
    (hpair : f c + f t = g c + g t) : (∑ i, f i) = ∑ i, g i := by
  have hc : c ∈ (Finset.univ : Finset (Fin n)).erase t :=
    Finset.mem_erase.mpr ⟨hct, Finset.mem_univ c⟩
  have ht : t ∈ (Finset.univ : Finset (Fin n)) := Finset.mem_univ t
  rw [← Finset.sum_erase_add Finset.univ f ht,
    ← Finset.sum_erase_add _ f hc,
    ← Finset.sum_erase_add Finset.univ g ht,
    ← Finset.sum_erase_add _ g hc]
  have hsub : ∑ i ∈ (Finset.univ.erase t).erase c, f i =
      ∑ i ∈ (Finset.univ.erase t).erase c, g i := by
    apply Finset.sum_congr rfl
    intro i hi
    rcases Finset.mem_erase.mp hi with ⟨hic, hi2⟩
    rcases Finset.mem_erase.mp hi2 with ⟨hit, _⟩
    exact hothers i hic hit
  rw [hsub]
  rw [add_assoc, add_assoc, hpair]

theorem acomm_conjH {n : Nat} (q : Fin n) (P Q : Pauli n) :
    acomm (conjH q P) (conjH q Q) = acomm P Q := by
  unfold acomm
  apply Finset.sum_congr rfl
  intro i _
  rw [pairBit_conjH]

theorem acomm_conjS {n : Nat} (q : Fin n) (P Q : Pauli n) :
    acomm (conjS q P) (conjS q Q) = acomm P Q := by
  unfold acomm
  apply Finset.sum_congr rfl
  intro i _
  rw [pairBit_conjS]

theorem acomm_conjCX {n : Nat} (c t : Fin n) (hct : c ≠ t) (P Q : Pauli n) :
    acomm (conjCX c t P) (conjCX c t Q) = acomm P Q := by
  unfold acomm
  apply sum_eq_of_two _ _ c t hct
  · intro i hic hit
    rw [pairBit_conjCX_other c t P Q i hic hit]
  · have htc : t ≠ c := Ne.symm hct
    simp only [pairBit, conjCX, Function.update_same,
      Function.update_noteq hct, Function.update_noteq htc]
    cases h1 : P.x c <;> cases h2 : P.z c <;> cases h3 : P.x t <;>
      cases h4 : P.z t <;> cases h5 : Q.x c <;> cases h6 : Q.z c <;>
      cases h7 : Q.x t <;> cases h8 : Q.z t <;> decide

theorem TabOK_mapRows {n : Nat} (f : Pauli n → Pauli n)
    (hf : ∀ P Q, acomm (f P) (f Q) = acomm P Q) (T : Tab n)
    (hT : TabOK T) : TabOK (mapRows f T) := by
  obtain ⟨h1, h2, h3, h4⟩ := hT
  exact ⟨fun i => by rw [show (mapRows f T).xs i = f (T.xs i) from rfl,
      show (mapRows f T).zs i = f (T.zs i) from rfl, hf]; exact h1 i,
    fun i j hij => by rw [show (mapRows f T).xs i = f (T.xs i) from rfl,
      show (mapRows f T).zs j = f (T.zs j) from rfl, hf]; exact h2 i j hij,
    fun i j => by rw [show (mapRows f T).xs i = f (T.xs i) from rfl,
      show (mapRows f T).xs j = f (T.xs j) from rfl, hf]; exact h3 i j,
    fun i j => by rw [show (mapRows f T).zs i = f (T.zs i) from rfl,
      show (mapRows f T).zs j = f (T.zs j) from rfl, hf]; exact h4 i j⟩

theorem TabOK_applyInstr {n : Nat} (op : CircuitInstruction) (T : Tab n)
    (hop : Emitted (n := n) op) (hT : TabOK T) : TabOK (applyInstr op T) := by
  rcases hop with ⟨q, rfl⟩ | ⟨q, rfl⟩ | ⟨c, t, hct, rfl⟩
  · rw [applyInstr_s]
    exact TabOK_mapRows _ (acomm_conjS q) T hT
  · rw [applyInstr_h]
    exact TabOK_mapRows _ (acomm_conjH q) T hT
  · rw [applyInstr_cx c t hct]
    exact TabOK_mapRows _ (acomm_conjCX c t hct) T hT

theorem TabOK_applyOps {n : Nat} (ops : List CircuitInstruction) :
    ∀ (T : Tab n), (∀ op ∈ ops, Emitted (n := n) op) → TabOK T →
      TabOK (applyOps ops T) := by
  induction ops with
  | nil =>
    intro T _ hT
    exact hT
  | cons op ops ih =>
    intro T hops hT
    rw [applyOps_cons]
    exact ih _ (fun o ho => hops o (by simp [ho]))
      (TabOK_applyInstr op T (hops op (by simp)) hT)

theorem b2_eq_zero {b : Bool} : b2 b = 0 ↔ b = false := by
  cases b
  · simp [b2]
  · simp [b2]

theorem b2_eq_one {b : Bool} : b2 b = 1 ↔ b = true := by
  cases b
  · simp [b2]
  · simp [b2]

theorem unitX_bits {n : Nat} {c : Fin n} {P : Pauli n}
    (h : isUnitXRow c P) (q : Fin n) (hqc : q ≠ c) :
    P.x q = false ∧ P.z q = false := by
  obtain ⟨hx, hz⟩ := h
  constructor
  · rw [hx]
    simp [hqc]
  · rw [hz]

theorem unitZ_bits {n : Nat} {c : Fin n} {P : Pauli n}
    (h : isUnitZRow c P) (q : Fin n) (hqc : q ≠ c) :
    P.x q = false ∧ P.z q = false := by
  obtain ⟨hx, hz⟩ := h
  constructor
  · rw [hx]
  · rw [hz]
    simp [hqc]

theorem isUnit_applyInstr {n : Nat} (op : CircuitInstruction) (m : Nat)
    (hop : Emitted (n := n) op) (hge : TargetsGE m op) (R : Tab n)
    (hu : unitsBelow m R) : unitsBelow m (applyInstr op R) := by
  rcases hop with ⟨q, rfl⟩ | ⟨q, rfl⟩ | ⟨c, t, hct, rfl⟩
  · rw [applyInstr_s]
    intro c hc
    have hqm : m ≤ q.val := hge q.val (by simp [sInstr])
    have hqc : q ≠ c := by
      intro hqc
      rw [hqc] at hqm
      omega
    obtain ⟨hux, huz⟩ := hu c hc
    constructor
    · show isUnitXRow c (conjS q (R.xs c))
      rw [conjS_fix q _ (unitX_bits hux q hqc).1]
      exact hux
    · show isUnitZRow c (conjS q (R.zs c))
      rw [conjS_fix q _ (unitZ_bits huz q hqc).1]
      exact huz
  · rw [applyInstr_h]
    intro c hc
    have hqm : m ≤ q.val := hge q.val (by simp [hInstr])
    have hqc : q ≠ c := by
      intro hqc
      rw [hqc] at hqm
      omega
    obtain ⟨hux, huz⟩ := hu c hc
    constructor
    · show isUnitXRow c (conjH q (R.xs c))
      rw [conjH_fix q _ (unitX_bits hux q hqc).1 (unitX_bits hux q hqc).2]
      exact hux
    · show isUnitZRow c (conjH q (R.zs c))
      rw [conjH_fix q _ (unitZ_bits huz q hqc).1 (unitZ_bits huz q hqc).2]
      exact huz
  · rw [applyInstr_cx c t hct]
    intro c' hc'
    have hcm : m ≤ c.val := hge c.val (by simp [cxInstr])
    have htm : m ≤ t.val := hge t.val (by simp [cxInstr])
    have hcc : c ≠ c' := by
      intro h
      rw [h] at hcm
      omega
    have htc : t ≠ c' := by
      intro h
      rw [h] at htm
      omega
    obtain ⟨hux, huz⟩ := hu c' hc'
    constructor
    · show isUnitXRow c' (conjCX c t (R.xs c'))
      rw [conjCX_fix c t _ (unitX_bits hux c hcc).1 (unitX_bits hux t htc).2]
      exact hux
    · show isUnitZRow c' (conjCX c t (R.zs c'))
      rw [conjCX_fix c t _ (unitZ_bits huz c hcc).1 (unitZ_bits huz t htc).2]
      exact huz

theorem isUnit_applyOps {n : Nat} (ops : List CircuitInstruction) (m : Nat) :
    ∀ (R : Tab n),
      (∀ op ∈ ops, Emitted (n := n) op ∧ TargetsGE m op) →
      unitsBelow m R → unitsBelow m (applyOps ops R) := by
  induction ops with
  | nil =>
    intro R _ hu
    exact hu
  | cons op ops ih =>
    intro R hops hu
    rw [applyOps_cons]
    exact ih _ (fun o ho => hops o (by simp [ho]))
      (isUnit_applyInstr op m (hops op (by simp)).1 (hops op (by simp)).2 R hu)

theorem acomm_comm {n : Nat} (P Q : Pauli n) : acomm P Q = acomm Q P := by
  unfold acomm
  apply Finset.sum_congr rfl
  intro i _
  unfold pairBit
  rw [Bool.xor_comm]
  rw [Bool.and_comm (P.x i), Bool.and_comm (P.z i)]

theorem acomm_unitZ {n : Nat} (c : Fin n) (P Q : Pauli n)
    (h : isUnitZRow c Q) : acomm P Q = b2 (P.x c) := by
  obtain ⟨hx, hz⟩ := h
  unfold acomm
  rw [Finset.sum_eq_single c]
  · unfold pairBit
    rw [hx, hz]
    simp
  · intro i _ hic
    unfold pairBit
    rw [hx, hz]
    simp [hic, b2]
  · intro h
    exact absurd (Finset.mem_univ c) h

theorem acomm_unitX {n : Nat} (c : Fin n) (P Q : Pauli n)
    (h : isUnitXRow c Q) : acomm P Q = b2 (P.z c) := by
  obtain ⟨hx, hz⟩ := h
  unfold acomm
  rw [Finset.sum_eq_single c]
  · unfold pairBit
    rw [hx, hz]
    simp
  · intro i _ hic
    unfold pairBit
    rw [hx, hz]
    simp [hic, b2]
  · intro h
    exact absurd (Finset.mem_univ c) h

theorem row_bits_below {n : Nat} (R : Tab n) (hOK : TabOK R) (m : Nat)
    (hu : unitsBelow m R) (col : Fin n) (hcol : m ≤ col.val) (c : Fin n)
    (hc : c.val < m) :
    ((R.xs col).x c = false ∧ (R.xs col).z c = false) ∧
      (R.zs col).x c = false ∧ (R.zs col).z c = false := by
  obtain ⟨h1, h2, h3, h4⟩ := hOK
  obtain ⟨hux, huz⟩ := hu c (by omega)
  have hcolc : col ≠ c := by
    intro h
    rw [h] at hcol
    omega
  refine ⟨⟨?_, ?_⟩, ?_, ?_⟩
  · have := h2 col c hcolc
    rw [acomm_unitZ c _ _ huz] at this
    exact b2_eq_zero.mp this
  · have := h3 col c
    rw [acomm_unitX c _ _ hux] at this
    exact b2_eq_zero.mp this
  · have := h4 col c
    rw [acomm_unitZ c _ _ huz] at this
    exact b2_eq_zero.mp this
  · have := h2 c col (Ne.symm hcolc)
    rw [acomm_comm] at this
    rw [acomm_unitX c _ _ hux] at this
    exact b2_eq_zero.mp this

theorem conjH_bits {n : Nat} (q : Fin n) (P : Pauli n) :
    (conjH q P).x q = P.z q ∧ (conjH q P).z q = P.x q ∧
      ∀ j, j ≠ q → (conjH q P).x j = P.x j ∧ (conjH q P).z j = P.z j := by
  refine ⟨?_, ?_, ?_⟩
  · show Function.update P.x q (P.z q) q = P.z q
    rw [Function.update_same]
  · show Function.update P.z q (P.x q) q = P.x q
    rw [Function.update_same]
  · intro j hj
    constructor
    · show Function.update P.x q (P.z q) j = P.x j
      rw [Function.update_noteq hj]
    · show Function.update P.z q (P.x q) j = P.z j
      rw [Function.update_noteq hj]

theorem conjS_bits {n : Nat} (q : Fin n) (P : Pauli n) :
    (conjS q P).x q = P.x q ∧ (conjS q P).z q = (P.z q ^^ P.x q) ∧
      ∀ j, j ≠ q → (conjS q P).x j = P.x j ∧ (conjS q P).z j = P.z j := by
  refine ⟨rfl, ?_, ?_⟩
  · show Function.update P.z q (P.z q ^^ P.x q) q = (P.z q ^^ P.x q)
    rw [Function.update_same]
  · intro j hj
    constructor
    · rfl
    · show Function.update P.z q (P.z q ^^ P.x q) j = P.z j
      rw [Function.update_noteq hj]

theorem conjCX_bits {n : Nat} (c t : Fin n) (hct : c ≠ t) (P : Pauli n) :
    (conjCX c t P).x t = (P.x t ^^ P.x c) ∧ (conjCX c t P).x c = P.x c ∧
      (conjCX c t P).z c = (P.z c ^^ P.z t) ∧ (conjCX c t P).z t = P.z t ∧
      ∀ j, j ≠ c → j ≠ t →
        (conjCX c t P).x j = P.x j ∧ (conjCX c t P).z j = P.z j := by
  have htc : t ≠ c := Ne.symm hct
  refine ⟨?_, ?_, ?_, ?_, ?_⟩
  · show Function.update P.x t (P.x t ^^ P.x c) t = (P.x t ^^ P.x c)
    rw [Function.update_same]
  · show Function.update P.x t (P.x t ^^ P.x c) c = P.x c
    rw [Function.update_noteq hct]
  · show Function.update P.z c (P.z c ^^ P.z t) c = (P.z c ^^ P.z t)
    rw [Function.update_same]
  · show Function.update P.z c (P.z c ^^ P.z t) t = P.z t
    rw [Function.update_noteq htc]
  · intro j hjc hjt
    constructor
    · show Function.update P.x t (P.x t ^^ P.x c) j = P.x j
      rw [Function.update_noteq hjt]
    · show Function.update P.z c (P.z c ^^ P.z t) j = P.z j
      rw [Function.update_noteq hjc]

theorem pivot_exists {n : Nat} (col : Fin n) (R : Tab n) (hOK : TabOK R)
    (hu : unitsBelow col.val R) :
    col ≤ findPivot col R ∧
      pairBit (R.xs col) (R.zs col) (findPivot col R) = true := by
  have h1 : acomm (R.xs col) (R.zs col) = 1 := hOK.1 col
  have hex : ∃ i : Fin n, col ≤ i ∧
      pairBit (R.xs col) (R.zs col) i = true := by
    have hne : (∑ i, b2 (pairBit (R.xs col) (R.zs col) i)) ≠ 0 := by
      rw [show (∑ i, b2 (pairBit (R.xs col) (R.zs col) i)) =
        acomm (R.xs col) (R.zs col) from rfl, h1]
      decide
    obtain ⟨i, _, hi⟩ := Finset.exists_ne_zero_of_sum_ne_zero hne
    refine ⟨i, ?_, ?_⟩
    · by_contra hlt
      push_neg at hlt
      obtain ⟨⟨hx1, hz1⟩, hx2, hz2⟩ :=
        row_bits_below R hOK col.val hu col (Nat.le_refl _) i
          (by omega)
      rw [show pairBit (R.xs col) (R.zs col) i =
        (((R.xs col).x i && (R.zs col).z i) ^^
          ((R.xs col).z i && (R.zs col).x i)) from rfl, hx1, hz1] at hi
      simp [b2] at hi
    · by_contra hbit
      rw [Bool.eq_false_iff.mpr hbit] at hi
      simp [b2] at hi
  obtain ⟨i, hile, hibit⟩ := hex
  unfold findPivot
  have hfind : ((List.finRange n).find? fun p =>
      decide (col ≤ p) && pairBit (R.xs col) (R.zs col) p).isSome := by
    rw [List.find?_isSome]
    exact ⟨i, by simp, by rw [hibit]; simp [hile]⟩
  match hm : (List.finRange n).find? fun p =>
      decide (col ≤ p) && pairBit (R.xs col) (R.zs col) p with
  | some p =>
    have := List.find?_some hm
    rcases Bool.and_eq_true_iff.mp this with ⟨hle, hbit⟩
    exact ⟨of_decide_eq_true hle, hbit⟩
  | none =>
    rw [hm] at hfind
    simp at hfind

theorem swapGates_emitted {n : Nat} (col p : Fin n) (hcp : col ≤ p) :
    ∀ op ∈ swapGates col p, Emitted (n := n) op ∧ TargetsGE col.val op := by
  intro op hop
  unfold swapGates at hop
  by_cases h : p = col
  · rw [if_pos h] at hop
    simp at hop
  · rw [if_neg h] at hop
    have hne : p ≠ col := h
    have hcle : col.val ≤ p.val := hcp
    simp only [List.mem_cons, List.not_mem_nil, or_false] at hop
    rcases hop with rfl | rfl | rfl
    · exact ⟨Or.inr (Or.inr ⟨p, col, hne, rfl⟩),
        by intro v hv; simp [cxInstr] at hv; rcases hv with rfl | rfl <;> omega⟩
    · exact ⟨Or.inr (Or.inr ⟨col, p, Ne.symm hne, rfl⟩),
        by intro v hv; simp [cxInstr] at hv; rcases hv with rfl | rfl <;> omega⟩
    · exact ⟨Or.inr (Or.inr ⟨p, col, hne, rfl⟩),
        by intro v hv; simp [cxInstr] at hv; rcases hv with rfl | rfl <;> omega⟩

theorem applyOps_swapGates {n : Nat} (col p : Fin n) (hne : p ≠ col)
    (R : Tab n) : applyOps (swapGates col p) R = mapRows (swapP p col) R := by
  unfold swapGates
  rw [if_neg hne]
  rw [applyOps_cons, applyOps_cons, applyOps_cons, applyOps_nil]
  rw [applyInstr_cx p col hne, applyInstr_cx col p (Ne.symm hne),
    applyInstr_cx p col hne, mapRows_mapRows, mapRows_mapRows]
  show mapRows (fun P => conjCX p col (conjCX col p (conjCX p col P))) R = _
  congr 1
  funext P
  exact conjCX_swap p col hne P

theorem swap_phase {n : Nat} (col : Fin n) (R : Tab n) (hOK : TabOK R)
    (hu : unitsBelow col.val R) :
    TabOK (applyOps (swapGates col (findPivot col R)) R) ∧
      unitsBelow col.val (applyOps (swapGates col (findPivot col R)) R) ∧
      pairBit ((applyOps (swapGates col (findPivot col R)) R).xs col)
        ((applyOps (swapGates col (findPivot col R)) R).zs col) col = true := by
  obtain ⟨hle, hbit⟩ := pivot_exists col R hOK hu
  have hemit := swapGates_emitted col (findPivot col R) hle
  refine ⟨TabOK_applyOps _ R (fun op hop => (hemit op hop).1) hOK,
    isUnit_applyOps _ _ R (fun op hop => hemit op hop) hu, ?_⟩
  by_cases hpc : findPivot col R = col
  · rw [show swapGates col (findPivot col R) = [] by
      unfold swapGates; rw [if_pos hpc]]
    rw [applyOps_nil]
    rw [hpc] at hbit
    exact hbit
  · rw [applyOps_swapGates col _ hpc R]
    show pairBit (swapP (findPivot col R) col (R.xs col))
      (swapP (findPivot col R) col (R.zs col)) col = true
    unfold pairBit swapP
    simp only [Function.update_same]
    unfold pairBit at hbit
    exact hbit

theorem applyOps_one_s {n : Nat} (col : Fin n) (R : Tab n) :
    applyOps [sInstr col] R = mapRows (conjS col) R := by
  rw [applyOps_cons, applyOps_nil, applyInstr_s]

theorem applyOps_one_h {n : Nat} (col : Fin n) (R : Tab n) :
    applyOps [hInstr col] R = mapRows (conjH col) R := by
  rw [applyOps_cons, applyOps_nil, applyInstr_h]

theorem ngEmitted {n : Nat} (col : Fin n) (R : Tab n) :
    ∀ op ∈ normGates col R, Emitted (n := n) op ∧ TargetsGE col.val op := by
  intro op hop
  unfold normGates at hop
  have hs : ∀ S : Tab n, op ∈ ng1 col S ∨ op ∈ ng2 col S ∨ op ∈ ng3 col S →
      Emitted (n := n) op ∧ TargetsGE col.val op := by
    intro S h
    have hof : op = sInstr col ∨ op = hInstr col := by
      rcases h with h | h | h
      · unfold ng1 at h
        split at h
        · simp at h
          exact Or.inl h
        · simp at h
      · unfold ng2 at h
        split at h
        · simp at h
          exact Or.inr h
        · simp at h
      · unfold ng3 at h
        split at h
        · simp at h
          exact Or.inl h
        · simp at h
    rcases hof with rfl | rfl
    · exact ⟨Or.inl ⟨col, rfl⟩,
        by intro v hv; simp [sInstr] at hv; omega⟩
    · exact ⟨Or.inr (Or.inl ⟨col, rfl⟩),
        by intro v hv; simp [hInstr] at hv; omega⟩
  rw [List.mem_append, List.mem_append] at hop
  rcases hop with (h | h) | h
  · exact hs R (Or.inl h)
  · exact hs _ (Or.inr (Or.inl h))
  · exact hs _ (Or.inr (Or.inr h))

theorem norm_phase {n : Nat} (col : Fin n) (R : Tab n) (hOK : TabOK R)
    (hu : unitsBelow col.val R)
    (hpiv : pairBit (R.xs col) (R.zs col) col = true) :
    TabOK (applyOps (normGates col R) R) ∧
    unitsBelow col.val (applyOps (normGates col R) R) ∧
    ((applyOps (normGates col R) R).xs col).x col = true ∧
    ((applyOps (normGates col R) R).xs col).z col = false ∧
    ((applyOps (normGates col R) R).zs col).x col = false ∧
    ((applyOps (normGates col R) R).zs col).z col = true := by
  have hemit := ngEmitted col R
  refine ⟨TabOK_applyOps _ R (fun op hop => (hemit op hop).1) hOK,
    isUnit_applyOps _ _ R hemit hu, ?_⟩
  have hsplit : applyOps (normGates col R) R =
      applyOps (ng3 col (applyOps (ng2 col (applyOps (ng1 col R) R))
          (applyOps (ng1 col R) R)))
        (applyOps (ng2 col (applyOps (ng1 col R) R))
          (applyOps (ng1 col R) R)) := by
    unfold normGates
    rw [applyOps_append, applyOps_append]
  rw [hsplit]
  unfold pairBit at hpiv
  cases hx1 : (R.xs col).x col <;> cases hz1 : (R.xs col).z col <;>
    cases hx2 : (R.zs col).x col <;> cases hz2 : (R.zs col).z col <;>
    rw [hx1, hz1, hx2, hz2] at hpiv <;> try exact absurd hpiv (by decide)
  · -- row1 = Z, row2 = X
    have e1 : ng1 col R = [] := by simp [ng1, hx2, hz2]
    rw [e1, applyOps_nil]
    have e2 : ng2 col R = [hInstr col] := by simp [ng2, hx2, hz2]
    rw [e2, applyOps_one_h]
    have b1x : ((mapRows (conjH col) R).xs col).x col = true := by
      show (conjH col (R.xs col)).x col = true
      rw [(conjH_bits col _).1, hz1]
    have b1z : ((mapRows (conjH col) R).xs col).z col = false := by
      show (conjH col (R.xs col)).z col = false
      rw [(conjH_bits col _).2.1, hx1]
    have b2x : ((mapRows (conjH col) R).zs col).x col = false := by
      show (conjH col (R.zs col)).x col = false
      rw [(conjH_bits col _).1, hz2]
    have b2z : ((mapRows (conjH col) R).zs col).z col = true := by
      show (conjH col (R.zs col)).z col = true
      rw [(conjH_bits col _).2.1, hx2]
    have e3 : ng3 col (mapRows (conjH col) R) = [] := by
      simp [ng3, b1x, b1z]
    rw [e3, applyOps_nil]
    exact ⟨b1x, b1z, b2x, b2z⟩
  · -- row1 = Z, row2 = Y
    have e1 : ng1 col R = [sInstr col] := by simp [ng1, hx2, hz2]
    rw [e1, applyOps_one_s]
    have a1x : ((mapRows (conjS col) R).xs col).x col = false := by
      show (conjS col (R.xs col)).x col = false
      rw [(conjS_bits col _).1, hx1]
    have a1z : ((mapRows (conjS col) R).xs col).z col = true := by
      show (conjS col (R.xs col)).z col = true
      rw [(conjS_bits col _).2.1, hz1, hx1]
      rfl
    have a2x : ((mapRows (conjS col) R).zs col).x col = true := by
      show (conjS col (R.zs col)).x col = true
      rw [(conjS_bits col _).1, hx2]
    have a2z : ((mapRows (conjS col) R).zs col).z col = false := by
      show (conjS col (R.zs col)).z col = false
      rw [(conjS_bits col _).2.1, hz2, hx2]
      rfl
    have e2 : ng2 col (mapRows (conjS col) R) = [hInstr col] := by
      simp [ng2, a2x, a2z]
    rw [e2, applyOps_one_h]
    have b1x : ((mapRows (conjH col) (mapRows (conjS col) R)).xs col).x col
        = true := by
      show (conjH col ((mapRows (conjS col) R).xs col)).x col = true
      rw [(conjH_bits col _).1, a1z]
    have b1z : ((mapRows (conjH col) (mapRows (conjS col) R)).xs col).z col
        = false := by
      show (conjH col ((mapRows (conjS col) R).xs col)).z col = false
      rw [(conjH_bits col _).2.1, a1x]
    have b2x : ((mapRows (conjH col) (mapRows (conjS col) R)).zs col).x col
        = false := by
      show (conjH col ((mapRows (conjS col) R).zs col)).x col = false
      rw [(conjH_bits col _).1, a2z]
    have b2z : ((mapRows (conjH col) (mapRows (conjS col) R)).zs col).z col
        = true := by
      show (conjH col ((mapRows (conjS col) R).zs col)).z col = true
      rw [(conjH_bits col _).2.1, a2x]
    have e3 : ng3 col (mapRows (conjH col) (mapRows (conjS col) R)) = [] := by
      simp [ng3, b1x, b1z]
    rw [e3, applyOps_nil]
    exact ⟨b1x, b1z, b2x, b2z⟩
  · -- row1 = X, row2 = Z
    have e1 : ng1 col R = [] := by simp [ng1, hx2, hz2]
    rw [e1, applyOps_nil]
    have e2 : ng2 col R = [] := by simp [ng2, hx2, hz2]
    rw [e2, applyOps_nil]
    have e3 : ng3 col R = [] := by simp [ng3, hx1, hz1]
    rw [e3, applyOps_nil]
    exact ⟨hx1, hz1, hx2, hz2⟩
  · -- row1 = X, row2 = Y
    have e1 : ng1 col R = [sInstr col] := by simp [ng1, hx2, hz2]
    rw [e1, applyOps_one_s]
    have a1x : ((mapRows (conjS col) R).xs col).x col = true := by
      show (conjS col (R.xs col)).x col = true
      rw [(conjS_bits col _).1, hx1]
    have a1z : ((mapRows (conjS col) R).xs col).z col = true := by
      show (conjS col (R.xs col)).z col = true
      rw [(conjS_bits col _).2.1, hz1, hx1]
      rfl
    have a2x : ((mapRows (conjS col) R).zs col).x col = true := by
      show (conjS col (R.zs col)).x col = true
      rw [(conjS_bits col _).1, hx2]
    have a2z : ((mapRows (conjS col) R).zs col).z col = false := by
      show (conjS col (R.zs col)).z col = false
      rw [(conjS_bits col _).2.1, hz2, hx2]
      rfl
    have e2 : ng2 col (mapRows (conjS col) R) = [hInstr col] := by
      simp [ng2, a2x, a2z]
    rw [e2, applyOps_one_h]
    have b1x : ((mapRows (conjH col) (mapRows (conjS col) R)).xs col).x col
        = true := by
      show (conjH col ((mapRows (conjS col) R).xs col)).x col = true
      rw [(conjH_bits col _).1, a1z]
    have b1z : ((mapRows (conjH col) (mapRows (conjS col) R)).xs col).z col
        = true := by
      show (conjH col ((mapRows (conjS col) R).xs col)).z col = true
      rw [(conjH_bits col _).2.1, a1x]
    have b2x : ((mapRows (conjH col) (mapRows (conjS col) R)).zs col).x col
        = false := by
      show (conjH col ((mapRows (conjS col) R).zs col)).x col = false
      rw [(conjH_bits col _).1, a2z]
    have b2z : ((mapRows (conjH col) (mapRows (conjS col) R)).zs col).z col
        = true := by
      show (conjH col ((mapRows (conjS col) R).zs col)).z col = true
      rw [(conjH_bits col _).2.1, a2x]
    have e3 : ng3 col (mapRows (conjH col) (mapRows (conjS col) R)) =
        [sInstr col] := by
      simp [ng3, b1x, b1z]
    rw [e3, applyOps_one_s]
    refine ⟨?_, ?_, ?_, ?_⟩
    · show (conjS col ((mapRows (conjH col) (mapRows (conjS col) R)).xs
        col)).x col = true
      rw [(conjS_bits col _).1, b1x]
    · show (conjS col ((mapRows (conjH col) (mapRows (conjS col) R)).xs
        col)).z col = false
      rw [(conjS_bits col _).2.1, b1z, b1x]
      rfl
    · show (conjS col ((mapRows (conjH col) (mapRows (conjS col) R)).zs
        col)).x col = false
      rw [(conjS_bits col _).1, b2x]
    · show (conjS col ((mapRows (conjH col) (mapRows (conjS col) R)).zs
        col)).z col = true
      rw [(conjS_bits col _).2.1, b2z, b2x]
      rfl
  · -- row1 = Y, row2 = Z
    have e1 : ng1 col R = [] := by simp [ng1, hx2, hz2]
    rw [e1, applyOps_nil]
    have e2 : ng2 col R = [] := by simp [ng2, hx2, hz2]
    rw [e2, applyOps_nil]
    have e3 : ng3 col R = [sInstr col] := by simp [ng3, hx1, hz1]
    rw [e3, applyOps_one_s]
    refine ⟨?_, ?_, ?_, ?_⟩
    · show (conjS col (R.xs col)).x col = true
      rw [(conjS_bits col _).1, hx1]
    · show (conjS col (R.xs col)).z col = false
      rw [(conjS_bits col _).2.1, hz1, hx1]
      rfl
    · show (conjS col (R.zs col)).x col = false
      rw [(conjS_bits col _).1, hx2]
    · show (conjS col (R.zs col)).z col = true
      rw [(conjS_bits col _).2.1, hz2, hx2]
      rfl
  · -- row1 = Y, row2 = X
    have e1 : ng1 col R = [] := by simp [ng1, hx2, hz2]
    rw [e1, applyOps_nil]
    have e2 : ng2 col R = [hInstr col] := by simp [ng2, hx2, hz2]
    rw [e2, applyOps_one_h]
    have b1x : ((mapRows (conjH col) R).xs col).x col = true := by
      show (conjH col (R.xs col)).x col = true
      rw [(conjH_bits col _).1, hz1]
    have b1z : ((mapRows (conjH col) R).xs col).z col = true := by
      show (conjH col (R.xs col)).z col = true
      rw [(conjH_bits col _).2.1, hx1]
    have b2x : ((mapRows (conjH col) R).zs col).x col = false := by
      show (conjH col (R.zs col)).x col = false
      rw [(conjH_bits col _).1, hz2]
    have b2z : ((mapRows (conjH col) R).zs col).z col = true := by
      show (conjH col (R.zs col)).z col = true
      rw [(conjH_bits col _).2.1, hx2]
    have e3 : ng3 col (mapRows (conjH col) R) = [sInstr col] := by
      simp [ng3, b1x, b1z]
    rw [e3, applyOps_one_s]
    refine ⟨?_, ?_, ?_, ?_⟩
    · show (conjS col ((mapRows (conjH col) R).xs col)).x col = true
      rw [(conjS_bits col _).1, b1x]
    · show (conjS col ((mapRows (conjH col) R).xs col)).z col = false
      rw [(conjS_bits col _).2.1, b1z, b1x]
      rfl
    · show (conjS col ((mapRows (conjH col) R).zs col)).x col = false
      rw [(conjS_bits col _).1, b2x]
    · show (conjS col ((mapRows (conjH col) R).zs col)).z col = true
      rw [(conjS_bits col _).2.1, b2z, b2x]
      rfl

theorem clearXq_emitted {n : Nat} (col q : Fin n) (hq : col < q)
    (P1 : Pauli n) :
    ∀ op ∈ clearXq col q P1, Emitted (n := n) op ∧ TargetsGE col.val op := by
  intro op hop
  have hne : col ≠ q := Fin.ne_of_lt hq
  have hqv : col.val ≤ q.val := Nat.le_of_lt hq
  have hcase : op = sInstr q ∨ op = hInstr q ∨ op = cxInstr col q := by
    unfold clearXq at hop
    split at hop
    · split at hop
      · simp at hop
        rcases hop with h | h
        · exact Or.inl h
        · exact Or.inr (Or.inr h)
      · simp at hop
        rcases hop with h | h
        · exact Or.inr (Or.inl h)
        · exact Or.inr (Or.inr h)
    · split at hop
      · simp at hop
        exact Or.inr (Or.inr hop)
      · simp at hop
  rcases hcase with rfl | rfl | rfl
  · exact ⟨Or.inl ⟨q, rfl⟩, by intro v hv; simp [sInstr] at hv; omega⟩
  · exact ⟨Or.inr (Or.inl ⟨q, rfl⟩),
      by intro v hv; simp [hInstr] at hv; omega⟩
  · exact ⟨Or.inr (Or.inr ⟨col, q, hne, rfl⟩),
      by intro v hv; simp [cxInstr] at hv; rcases hv with rfl | rfl <;> omega⟩

theorem clearX_step {n : Nat} (col q : Fin n) (hq : col < q) (R : Tab n)
    (hb1x : (R.xs col).x col = true) (hb1z : (R.xs col).z col = false) :
    ((applyOps (clearXq col q (R.xs col)) R).xs col).x q = false ∧
    ((applyOps (clearXq col q (R.xs col)) R).xs col).z q = false ∧
    ((applyOps (clearXq col q (R.xs col)) R).xs col).x col = true ∧
    ((applyOps (clearXq col q (R.xs col)) R).xs col).z col = false ∧
    (∀ j, j ≠ q → j ≠ col →
      ((applyOps (clearXq col q (R.xs col)) R).xs col).x j = (R.xs col).x j ∧
      ((applyOps (clearXq col q (R.xs col)) R).xs col).z j = (R.xs col).z j) ∧
    ((applyOps (clearXq col q (R.xs col)) R).zs col).x col =
      (R.zs col).x col := by
  have hne : col ≠ q := Fin.ne_of_lt hq
  have hqc : q ≠ col := Ne.symm hne
  cases hx : (R.xs col).x q <;> cases hz : (R.xs col).z q
  · -- identity, no gates
    have e : clearXq col q (R.xs col) = [] := by
      simp [clearXq, hx, hz]
    rw [e, applyOps_nil]
    exact ⟨hx, hz, hb1x, hb1z, fun j _ _ => ⟨rfl, rfl⟩, rfl⟩
  · -- Z at q: H then CX
    have e : clearXq col q (R.xs col) = [hInstr q, cxInstr col q] := by
      simp [clearXq, hx, hz]
    rw [e, applyOps_cons, applyOps_cons, applyOps_nil, applyInstr_h,
      applyInstr_cx col q hne, mapRows_mapRows]
    have hrow : ∀ i, ((mapRows
        (fun P => conjCX col q (conjH q P)) R).xs i) =
        conjCX col q (conjH q (R.xs i)) := fun _ => rfl
    have hrow2 : ∀ i, ((mapRows
        (fun P => conjCX col q (conjH q P)) R).zs i) =
        conjCX col q (conjH q (R.zs i)) := fun _ => rfl
    have hH := conjH_bits q (R.xs col)
    have hHx : (conjH q (R.xs col)).x q = true := by rw [hH.1, hz]
    have hHz : (conjH q (R.xs col)).z q = false := by rw [hH.2.1, hx]
    have hHxc : (conjH q (R.xs col)).x col = true := by
      rw [(hH.2.2 col hne).1, hb1x]
    have hHzc : (conjH q (R.xs col)).z col = false := by
      rw [(hH.2.2 col hne).2, hb1z]
    have hC := conjCX_bits col q hne (conjH q (R.xs col))
    refine ⟨?_, ?_, ?_, ?_, ?_, ?_⟩
    · rw [hrow, hC.1, hHx, hHxc]
      rfl
    · rw [hrow, hC.2.2.2.1, hHz]
    · rw [hrow, hC.2.1, hHxc]
    · rw [hrow, hC.2.2.1, hHzc, hHz]
      rfl
    · intro j hjq hjc
      rw [hrow, (hC.2.2.2.2 j hjc hjq).1, (hC.2.2.2.2 j hjc hjq).2,
        (hH.2.2 j hjq).1, (hH.2.2 j hjq).2]
      exact ⟨rfl, rfl⟩
    · rw [hrow2]
      have hC2 := conjCX_bits col q hne (conjH q (R.zs col))
      rw [hC2.2.1, (conjH_bits q (R.zs col)).2.2 col hne |>.1]
  · -- X at q: CX only
    have e : clearXq col q (R.xs col) = [cxInstr col q] := by
      simp [clearXq, hx, hz]
    rw [e, applyOps_cons, applyOps_nil, applyInstr_cx col q hne]
    have hC := conjCX_bits col q hne (R.xs col)
    refine ⟨?_, ?_, ?_, ?_, ?_, ?_⟩
    · show (conjCX col q (R.xs col)).x q = false
      rw [hC.1, hx, hb1x]
      rfl
    · show (conjCX col q (R.xs col)).z q = false
      rw [hC.2.2.2.1, hz]
    · show (conjCX col q (R.xs col)).x col = true
      rw [hC.2.1, hb1x]
    · show (conjCX col q (R.xs col)).z col = false
      rw [hC.2.2.1, hb1z, hz]
      rfl
    · intro j hjq hjc
      show (conjCX col q (R.xs col)).x j = (R.xs col).x j ∧
        (conjCX col q (R.xs col)).z j = (R.xs col).z j
      exact ⟨(hC.2.2.2.2 j hjc hjq).1, (hC.2.2.2.2 j hjc hjq).2⟩
    · show (conjCX col q (R.zs col)).x col = (R.zs col).x col
      exact (conjCX_bits col q hne (R.zs col)).2.1
  · -- Y at q: S then CX
    have e : clearXq col q (R.xs col) = [sInstr q, cxInstr col q] := by
      simp [clearXq, hx, hz]
    rw [e, applyOps_cons, applyOps_cons, applyOps_nil, applyInstr_s,
      applyInstr_cx col q hne, mapRows_mapRows]
    have hrow : ∀ i, ((mapRows
        (fun P => conjCX col q (conjS q P)) R).xs i) =
        conjCX col q (conjS q (R.xs i)) := fun _ => rfl
    have hrow2 : ∀ i, ((mapRows
        (fun P => conjCX col q (conjS q P)) R).zs i) =
        conjCX col q (conjS q (R.zs i)) := fun _ => rfl
    have hS := conjS_bits q (R.xs col)
    have hSx : (conjS q (R.xs col)).x q = true := by rw [hS.1, hx]
    have hSz : (conjS q (R.xs col)).z q = false := by
      rw [hS.2.1, hz, hx]
      rfl
    have hSxc : (conjS q (R.xs col)).x col = true := by
      rw [(hS.2.2 col hne).1, hb1x]
    have hSzc : (conjS q (R.xs col)).z col = false := by
      rw [(hS.2.2 col hne).2, hb1z]
    have hC := conjCX_bits col q hne (conjS q (R.xs col))
    refine ⟨?_, ?_, ?_, ?_, ?_, ?_⟩
    · rw [hrow, hC.1, hSx, hSxc]
      rfl
    · rw [hrow, hC.2.2.2.1, hSz]
    · rw [hrow, hC.2.1, hSxc]
    · rw [hrow, hC.2.2.1, hSzc, hSz]
      rfl
    · intro j hjq hjc
      rw [hrow, (hC.2.2.2.2 j hjc hjq).1, (hC.2.2.2.2 j hjc hjq).2,
        (hS.2.2 j hjq).1, (hS.2.2 j hjq).2]
      exact ⟨rfl, rfl⟩
    · rw [hrow2]
      have hC2 := conjCX_bits col q hne (conjS q (R.zs col))
      rw [hC2.2.1, (conjS_bits q (R.zs col)).2.2 col hne |>.1]

theorem clearX_loop_spec {n : Nat} (col : Fin n) :
    ∀ (qs : List (Fin n)) (R : Tab n), (∀ q ∈ qs, col < q) →
    TabOK R → unitsBelow col.val R →
    (R.xs col).x col = true → (R.xs col).z col = false →
    (R.zs col).x col = false →
    (∀ j, j ≠ col → j ∉ qs →
      (R.xs col).x j = false ∧ (R.xs col).z j = false) →
    TabOK (applyOps (clearXLoop col qs R) R) ∧
    unitsBelow col.val (applyOps (clearXLoop col qs R) R) ∧
    ((applyOps (clearXLoop col qs R) R).xs col).x col = true ∧
    ((applyOps (clearXLoop col qs R) R).xs col).z col = false ∧
    ((applyOps (clearXLoop col qs R) R).zs col).x col = false ∧
    (∀ j, j ≠ col →
      ((applyOps (clearXLoop col qs R) R).xs col).x j = false ∧
      ((applyOps (clearXLoop col qs R) R).xs col).z j = false) ∧
    (∀ op ∈ clearXLoop col qs R,
      Emitted (n := n) op ∧ TargetsGE col.val op) := by
  intro qs
  induction qs with
  | nil =>
    intro R _ hOK hu h1x h1z h2x hjs
    rw [show clearXLoop col [] R = [] from rfl, applyOps_nil]
    exact ⟨hOK, hu, h1x, h1z, h2x,
      fun j hj => hjs j hj (List.not_mem_nil j),
      fun op hop => absurd hop (List.not_mem_nil op)⟩
  | cons q qs ih =>
    intro R hqs hOK hu h1x h1z h2x hjs
    have hq : col < q := hqs q (by simp)
    have hloop : clearXLoop col (q :: qs) R =
        clearXq col q (R.xs col) ++
          clearXLoop col qs (applyOps (clearXq col q (R.xs col)) R) := rfl
    have hemitq := clearXq_emitted col q hq (R.xs col)
    obtain ⟨sq, sz, scx, scz, sother, s2x⟩ :=
      clearX_step col q hq R h1x h1z
    have hOK' : TabOK (applyOps (clearXq col q (R.xs col)) R) :=
      TabOK_applyOps _ R (fun op hop => (hemitq op hop).1) hOK
    have hu' : unitsBelow col.val (applyOps (clearXq col q (R.xs col)) R) :=
      isUnit_applyOps _ _ R hemitq hu
    have h2x' : ((applyOps (clearXq col q (R.xs col)) R).zs col).x col
        = false := by rw [s2x, h2x]
    have hjs' : ∀ j, j ≠ col → j ∉ qs →
        ((applyOps (clearXq col q (R.xs col)) R).xs col).x j = false ∧
        ((applyOps (clearXq col q (R.xs col)) R).xs col).z j = false := by
      intro j hjc hjqs
      by_cases hjq : j = q
      · subst hjq
        exact ⟨sq, sz⟩
      · obtain ⟨e1, e2⟩ := sother j hjq hjc
        obtain ⟨f1, f2⟩ := hjs j hjc (by
          intro hc
          rcases List.mem_cons.mp hc with h | h
          · exact hjq h
          · exact hjqs h)
        exact ⟨by rw [e1, f1], by rw [e2, f2]⟩
    obtain ⟨rOK, ru, rx, rz, r2x, rjs, rops⟩ :=
      ih (applyOps (clearXq col q (R.xs col)) R)
        (fun q' hq' => hqs q' (by simp [hq'])) hOK' hu' scx scz h2x' hjs'
    rw [hloop, applyOps_append]
    refine ⟨rOK, ru, rx, rz, r2x, rjs, ?_⟩
    intro op hop
    rcases List.mem_append.mp hop with h | h
    · exact hemitq op h
    · exact rops op h

theorem clearZq_emitted {n : Nat} (col q : Fin n) (hq : col < q)
    (P2 : Pauli n) :
    ∀ op ∈ clearZq col q P2, Emitted (n := n) op ∧ TargetsGE col.val op := by
  intro op hop
  have hne : q ≠ col := Ne.symm (Fin.ne_of_lt hq)
  have hqv : col.val ≤ q.val := Nat.le_of_lt hq
  have hcase : op = sInstr q ∨ op = hInstr q ∨ op = cxInstr q col := by
    unfold clearZq at hop
    split at hop
    · split at hop
      · simp at hop
        rcases hop with h | h | h
        · exact Or.inl h
        · exact Or.inr (Or.inl h)
        · exact Or.inr (Or.inr h)
      · simp at hop
        rcases hop with h | h
        · exact Or.inr (Or.inl h)
        · exact Or.inr (Or.inr h)
    · split at hop
      · simp at hop
        exact Or.inr (Or.inr hop)
      · simp at hop
  rcases hcase with rfl | rfl | rfl
  · exact ⟨Or.inl ⟨q, rfl⟩, by intro v hv; simp [sInstr] at hv; omega⟩
  · exact ⟨Or.inr (Or.inl ⟨q, rfl⟩),
      by intro v hv; simp [hInstr] at hv; omega⟩
  · exact ⟨Or.inr (Or.inr ⟨q, col, hne, rfl⟩),
      by intro v hv; simp [cxInstr] at hv; rcases hv with rfl | rfl <;> omega⟩

theorem clearZ_step {n : Nat} (col q : Fin n) (hq : col < q) (R : Tab n)
    (hp1x : (R.xs col).x col = true) (hp1z : (R.xs col).z col = false)
    (hp1o : ∀ j, j ≠ col →
      (R.xs col).x j = false ∧ (R.xs col).z j = false)
    (hb2x : (R.zs col).x col = false) (hb2z : (R.zs col).z col = true) :
    ((applyOps (clearZq col q (R.zs col)) R).zs col).x q = false ∧
    ((applyOps (clearZq col q (R.zs col)) R).zs col).z q = false ∧
    ((applyOps (clearZq col q (R.zs col)) R).zs col).x col = false ∧
    ((applyOps (clearZq col q (R.zs col)) R).zs col).z col = true ∧
    (∀ j, j ≠ q → j ≠ col →
      ((applyOps (clearZq col q (R.zs col)) R).zs col).x j = (R.zs col).x j ∧
      ((applyOps (clearZq col q (R.zs col)) R).zs col).z j = (R.zs col).z j) ∧
    (applyOps (clearZq col q (R.zs col)) R).xs col = R.xs col := by
  have hne : q ≠ col := Ne.symm (Fin.ne_of_lt hq)
  have hcq : col ≠ q := Fin.ne_of_lt hq
  have h1xq : (R.xs col).x q = false := (hp1o q hne).1
  have h1zq : (R.xs col).z q = false := (hp1o q hne).2
  cases hx : (R.zs col).x q <;> cases hz : (R.zs col).z q
  · have e : clearZq col q (R.zs col) = [] := by
      simp [clearZq, hx, hz]
    rw [e, applyOps_nil]
    exact ⟨hx, hz, hb2x, hb2z, fun j _ _ => ⟨rfl, rfl⟩, rfl⟩
  · -- Z at q: CX(q, col) only
    have e : clearZq col q (R.zs col) = [cxInstr q col] := by
      simp [clearZq, hx, hz]
    rw [e, applyOps_cons, applyOps_nil, applyInstr_cx q col hne]
    have hC := conjCX_bits q col hne (R.zs col)
    refine ⟨?_, ?_, ?_, ?_, ?_, ?_⟩
    · show (conjCX q col (R.zs col)).x q = false
      rw [hC.2.1, hx]
    · show (conjCX q col (R.zs col)).z q = false
      rw [hC.2.2.1, hz, hb2z]
      rfl
    · show (conjCX q col (R.zs col)).x col = false
      rw [hC.1, hb2x, hx]
      rfl
    · show (conjCX q col (R.zs col)).z col = true
      rw [hC.2.2.2.1, hb2z]
    · intro j hjq hjc
      show (conjCX q col (R.zs col)).x j = (R.zs col).x j ∧
        (conjCX q col (R.zs col)).z j = (R.zs col).z j
      exact ⟨(hC.2.2.2.2 j hjq hjc).1, (hC.2.2.2.2 j hjq hjc).2⟩
    · show conjCX q col (R.xs col) = R.xs col
      exact conjCX_fix q col _ h1xq hp1z
  · -- X at q: H then CX(q, col)
    have e : clearZq col q (R.zs col) = [hInstr q, cxInstr q col] := by
      simp [clearZq, hx, hz]
    rw [e, applyOps_cons, applyOps_cons, applyOps_nil, applyInstr_h,
      applyInstr_cx q col hne, mapRows_mapRows]
    have hrow2 : ∀ i, ((mapRows
        (fun P => conjCX q col (conjH q P)) R).zs i) =
        conjCX q col (conjH q (R.zs i)) := fun _ => rfl
    have hH := conjH_bits q (R.zs col)
    have hHx : (conjH q (R.zs col)).x q = false := by rw [hH.1, hz]
    have hHz : (conjH q (R.zs col)).z q = true := by rw [hH.2.1, hx]
    have hHxc : (conjH q (R.zs col)).x col = false := by
      rw [(hH.2.2 col hcq).1, hb2x]
    have hHzc : (conjH q (R.zs col)).z col = true := by
      rw [(hH.2.2 col hcq).2, hb2z]
    have hC := conjCX_bits q col hne (conjH q (R.zs col))
    refine ⟨?_, ?_, ?_, ?_, ?_, ?_⟩
    · rw [hrow2, hC.2.1, hHx]
    · rw [hrow2, hC.2.2.1, hHz, hHzc]
      rfl
    · rw [hrow2, hC.1, hHxc, hHx]
      rfl
    · rw [hrow2, hC.2.2.2.1, hHzc]
    · intro j hjq hjc
      rw [hrow2, (hC.2.2.2.2 j hjq hjc).1, (hC.2.2.2.2 j hjq hjc).2,
        (hH.2.2 j hjq).1, (hH.2.2 j hjq).2]
      exact ⟨rfl, rfl⟩
    · show conjCX q col (conjH q (R.xs col)) = R.xs col
      rw [conjH_fix q _ h1xq h1zq]
      exact conjCX_fix q col _ h1xq hp1z
  · -- Y at q: S, H, then CX(q, col)
    have e : clearZq col q (R.zs col) =
        [sInstr q, hInstr q, cxInstr q col] := by
      simp [clearZq, hx, hz]
    rw [e, applyOps_cons, applyOps_cons, applyOps_cons, applyOps_nil,
      applyInstr_s, applyInstr_h, applyInstr_cx q col hne,
      mapRows_mapRows, mapRows_mapRows]
    have hrow2 : ∀ i, ((mapRows
        (fun P => conjCX q col (conjH q (conjS q P))) R).zs i) =
        conjCX q col (conjH q (conjS q (R.zs i))) := fun _ => rfl
    have hS := conjS_bits q (R.zs col)
    have hSx : (conjS q (R.zs col)).x q = true := by rw [hS.1, hx]
    have hSz : (conjS q (R.zs col)).z q = false := by
      rw [hS.2.1, hz, hx]
      rfl
    have hSxc : (conjS q (R.zs col)).x col = false := by
      rw [(hS.2.2 col hcq).1, hb2x]
    have hSzc : (conjS q (R.zs col)).z col = true := by
      rw [(hS.2.2 col hcq).2, hb2z]
    have hH := conjH_bits q (conjS q (R.zs col))
    have hHx : (conjH q (conjS q (R.zs col))).x q = false := by
      rw [hH.1, hSz]
    have hHz : (conjH q (conjS q (R.zs col))).z q = true := by
      rw [hH.2.1, hSx]
    have hHxc : (conjH q (conjS q (R.zs col))).x col = false := by
      rw [(hH.2.2 col hcq).1, hSxc]
    have hHzc : (conjH q (conjS q (R.zs col))).z col = true := by
      rw [(hH.2.2 col hcq).2, hSzc]
    have hC := conjCX_bits q col hne (conjH q (conjS q (R.zs col)))
    refine ⟨?_, ?_, ?_, ?_, ?_, ?_⟩
    · rw [hrow2, hC.2.1, hHx]
    · rw [hrow2, hC.2.2.1, hHz, hHzc]
      rfl
    · rw [hrow2, hC.1, hHxc, hHx]
      rfl
    · rw [hrow2, hC.2.2.2.1, hHzc]
    · intro j hjq hjc
      rw [hrow2, (hC.2.2.2.2 j hjq hjc).1, (hC.2.2.2.2 j hjq hjc).2,
        (hH.2.2 j hjq).1, (hH.2.2 j hjq).2,
        (hS.2.2 j hjq).1, (hS.2.2 j hjq).2]
      exact ⟨rfl, rfl⟩
    · show conjCX q col (conjH q (conjS q (R.xs col))) = R.xs col
      rw [conjS_fix q _ h1xq, conjH_fix q _ h1xq h1zq]
      exact conjCX_fix q col _ h1xq hp1z

theorem clearZ_loop_spec {n : Nat} (col : Fin n) :
    ∀ (qs : List (Fin n)) (R : Tab n), (∀ q ∈ qs, col < q) →
    TabOK R → unitsBelow col.val R →
    (R.xs col).x col = true → (R.xs col).z col = false →
    (∀ j, j ≠ col → (R.xs col).x j = false ∧ (R.xs col).z j = false) →
    (R.zs col).x col = false → (R.zs col).z col = true →
    (∀ j, j ≠ col → j ∉ qs →
      (R.zs col).x j = false ∧ (R.zs col).z j = false) →
    TabOK (applyOps (clearZLoop col qs R) R) ∧
    unitsBelow col.val (applyOps (clearZLoop col qs R) R) ∧
    (applyOps (clearZLoop col qs R) R).xs col = R.xs col ∧
    ((applyOps (clearZLoop col qs R) R).zs col).x col = false ∧
    ((applyOps (clearZLoop col qs R) R).zs col).z col = true ∧
    (∀ j, j ≠ col →
      ((applyOps (clearZLoop col qs R) R).zs col).x j = false ∧
      ((applyOps (clearZLoop col qs R) R).zs col).z j = false) ∧
    (∀ op ∈ clearZLoop col qs R,
      Emitted (n := n) op ∧ TargetsGE col.val op) := by
  intro qs
  induction qs with
  | nil =>
    intro R _ hOK hu h1x h1z h1o h2x h2z hjs
    rw [show clearZLoop col [] R = [] from rfl, applyOps_nil]
    exact ⟨hOK, hu, rfl, h2x, h2z,
      fun j hj => hjs j hj (List.not_mem_nil j),
      fun op hop => absurd hop (List.not_mem_nil op)⟩
  | cons q qs ih =>
    intro R hqs hOK hu h1x h1z h1o h2x h2z hjs
    have hq : col < q := hqs q (by simp)
    have hloop : clearZLoop col (q :: qs) R =
        clearZq col q (R.zs col) ++
          clearZLoop col qs (applyOps (clearZq col q (R.zs col)) R) := rfl
    have hemitq := clearZq_emitted col q hq (R.zs col)
    obtain ⟨sq, sz, sxc, szc, sother, srow1⟩ :=
      clearZ_step col q hq R h1x h1z h1o h2x h2z
    have hOK' : TabOK (applyOps (clearZq col q (R.zs col)) R) :=
      TabOK_applyOps _ R (fun op hop => (hemitq op hop).1) hOK
    have hu' : unitsBelow col.val (applyOps (clearZq col q (R.zs col)) R) :=
      isUnit_applyOps _ _ R hemitq hu
    have h1x' : ((applyOps (clearZq col q (R.zs col)) R).xs col).x col
        = true := by rw [srow1, h1x]
    have h1z' : ((applyOps (clearZq col q (R.zs col)) R).xs col).z col
        = false := by rw [srow1, h1z]
    have h1o' : ∀ j, j ≠ col →
        ((applyOps (clearZq col q (R.zs col)) R).xs col).x j = false ∧
        ((applyOps (clearZq col q (R.zs col)) R).xs col).z j = false := by
      intro j hj
      rw [srow1]
      exact h1o j hj
    have hjs' : ∀ j, j ≠ col → j ∉ qs →
        ((applyOps (clearZq col q (R.zs col)) R).zs col).x j = false ∧
        ((applyOps (clearZq col q (R.zs col)) R).zs col).z j = false := by
      intro j hjc hjqs
      by_cases hjq : j = q
      · subst hjq
        exact ⟨sq, sz⟩
      · obtain ⟨e1, e2⟩ := sother j hjq hjc
        obtain ⟨f1, f2⟩ := hjs j hjc (by
          intro hc
          rcases List.mem_cons.mp hc with h | h
          · exact hjq h
          · exact hjqs h)
        exact ⟨by rw [e1, f1], by rw [e2, f2]⟩
    obtain ⟨rOK, ru, rrow1, rxc, rzc, rjs, rops⟩ :=
      ih (applyOps (clearZq col q (R.zs col)) R)
        (fun q' hq' => hqs q' (by simp [hq'])) hOK' hu' h1x' h1z' h1o'
        sxc szc hjs'
    rw [hloop, applyOps_append]
    refine ⟨rOK, ru, by rw [rrow1, srow1], rxc, rzc, rjs, ?_⟩
    intro op hop
    rcases List.mem_append.mp hop with h | h
    · exact hemitq op h
    · exact rops op h

theorem unitX_of_bits {n : Nat} (c : Fin n) (P : Pauli n)
    (hx : P.x c = true) (hz : P.z c = false)
    (ho : ∀ j, j ≠ c → P.x j = false ∧ P.z j = false) : isUnitXRow c P := by
  constructor
  · funext j
    by_cases hj : j = c
    · subst hj
      rw [hx]
      simp
    · rw [(ho j hj).1]
      exact (decide_eq_false hj).symm
  · funext j
    by_cases hj : j = c
    · subst hj
      exact hz
    · exact (ho j hj).2

theorem unitZ_of_bits {n : Nat} (c : Fin n) (P : Pauli n)
    (hx : P.x c = false) (hz : P.z c = true)
    (ho : ∀ j, j ≠ c → P.x j = false ∧ P.z j = false) : isUnitZRow c P := by
  constructor
  · funext j
    by_cases hj : j = c
    · subst hj
      exact hx
    · exact (ho j hj).1
  · funext j
    by_cases hj : j = c
    · subst hj
      rw [hz]
      simp
    · rw [(ho j hj).2]
      exact (decide_eq_false hj).symm

theorem mem_tailCols {n : Nat} (col q : Fin n) :
    q ∈ tailCols col ↔ col < q := by
  unfold tailCols
  rw [List.mem_filter]
  constructor
  · intro h
    exact of_decide_eq_true h.2
  · intro h
    exact ⟨List.mem_finRange q, decide_eq_true h⟩

theorem not_mem_tailCols {n : Nat} (col j : Fin n) (hjc : j ≠ col)
    (hjm : j ∉ tailCols col) : j.val < col.val := by
  have hvne : j.val ≠ col.val := fun h => hjc (Fin.ext h)
  by_contra hge
  push_neg at hge
  exact hjm ((mem_tailCols col j).mpr (by omega))

theorem colGates_spec {n : Nat} (col : Fin n) (R : Tab n) (hOK : TabOK R)
    (hu : unitsBelow col.val R) :
    TabOK (applyOps (colGates col R) R) ∧
    unitsBelow (col.val + 1) (applyOps (colGates col R) R) ∧
    ∀ op ∈ colGates col R, Emitted (n := n) op ∧ TargetsGE col.val op := by
  have htail : ∀ q ∈ tailCols col, col < q :=
    fun q hq => (mem_tailCols col q).mp hq
  obtain ⟨hOK1, hu1, hpiv⟩ := swap_phase col R hOK hu
  obtain ⟨hOK2, hu2, h1x, h1z, h2x, h2z⟩ := norm_phase col _ hOK1 hu1 hpiv
  obtain ⟨hOK3, hu3, k1x, k1z, k2x, k1o, kops⟩ :=
    clearX_loop_spec col (tailCols col) _ htail hOK2 hu2 h1x h1z h2x
      (fun j hjc hjm =>
        (row_bits_below _ hOK2 col.val hu2 col (Nat.le_refl _) j
          (not_mem_tailCols col j hjc hjm)).1)
  have hUX := unitX_of_bits col _ k1x k1z k1o
  have h2z3 := hOK3.1 col
  rw [acomm_comm, acomm_unitX col _ _ hUX] at h2z3
  replace h2z3 := b2_eq_one.mp h2z3
  obtain ⟨hOK4, hu4, lrow1, l2x, l2z, l2o, lops⟩ :=
    clearZ_loop_spec col (tailCols col) _ htail hOK3 hu3 k1x k1z k1o k2x h2z3
      (fun j hjc hjm =>
        (row_bits_below _ hOK3 col.val hu3 col (Nat.le_refl _) j
          (not_mem_tailCols col j hjc hjm)).2)
  have hple := (pivot_exists col R hOK hu).1
  refine ⟨?_, ?_, ?_⟩
  · unfold colGates
    rw [applyOps_append, applyOps_append, applyOps_append]
    exact hOK4
  · unfold colGates
    rw [applyOps_append, applyOps_append, applyOps_append]
    intro c hc
    by_cases hcc : c.val < col.val
    · exact hu4 c hcc
    · have hceq : c = col := Fin.ext (by omega)
      subst hceq
      refine ⟨?_, unitZ_of_bits c _ l2x l2z l2o⟩
      rw [lrow1]
      exact unitX_of_bits c _ k1x k1z k1o
  · intro op hop
    unfold colGates at hop
    rw [List.mem_append, List.mem_append, List.mem_append] at hop
    rcases hop with ((h | h) | h) | h
    · exact swapGates_emitted col _ hple op h
    · exact ngEmitted col _ op h
    · exact kops op h
    · exact lops op h

theorem elim_loop_spec {n : Nat} :
    ∀ (k m : Nat), m + k = n → ∀ (R : Tab n), TabOK R → unitsBelow m R →
    TabOK (applyOps (elimLoop ((List.finRange n).drop m) R) R) ∧
    unitsBelow n (applyOps (elimLoop ((List.finRange n).drop m) R) R) ∧
    ∀ op ∈ elimLoop ((List.finRange n).drop m) R, Emitted (n := n) op := by
  intro k
  induction k with
  | zero =>
    intro m hm R hOK hu
    have hd : (List.finRange n).drop m = [] := by
      rw [List.drop_eq_nil_iff]
      simp
      omega
    rw [hd, show elimLoop ([] : List (Fin n)) R = [] from rfl, applyOps_nil]
    have hmn : m = n := by omega
    exact ⟨hOK, hmn ▸ hu, fun op hop => absurd hop (List.not_mem_nil op)⟩
  | succ k ih =>
    intro m hm R hOK hu
    have hmn : m < n := by omega
    have hd : (List.finRange n).drop m =
        ⟨m, hmn⟩ :: (List.finRange n).drop (m + 1) := by
      rw [List.drop_eq_getElem_cons (by simpa using hmn)]
      congr 1
      simp
    rw [hd]
    rw [show elimLoop (⟨m, hmn⟩ :: (List.finRange n).drop (m + 1)) R =
      colGates ⟨m, hmn⟩ R ++
        elimLoop ((List.finRange n).drop (m + 1))
          (applyOps (colGates ⟨m, hmn⟩ R) R) from rfl]
    obtain ⟨cOK, cu, cops⟩ := colGates_spec ⟨m, hmn⟩ R hOK hu
    obtain ⟨rOK, ru, rops⟩ := ih (m + 1) (by omega) _ cOK cu
    rw [applyOps_append]
    refine ⟨rOK, ru, ?_⟩
    intro op hop
    rcases List.mem_append.mp hop with h | h
    · exact (cops op h).1
    · exact rops op h

theorem elim_total_units {n : Nat} (T : Tab n) (hT : TabOK T) :
    TabOK (applyOps (elimLoop (List.finRange n) T) T) ∧
    unitsBelow n (applyOps (elimLoop (List.finRange n) T) T) ∧
    ∀ op ∈ elimLoop (List.finRange n) T, Emitted (n := n) op := by
  have h := elim_loop_spec n 0 (by omega) T hT
    (fun c hc => absurd hc (by omega))
  rw [List.drop_zero] at h
  exact h

theorem conjZX_eq {n : Nat} (q : Fin n) (P : Pauli n) :
    conjH q (conjS q (conjS q (conjH q (conjS q (conjS q P))))) =
      ⟨(P.neg ^^ P.x q) ^^ P.z q, P.x, P.z⟩ := by
  rw [conjX_eq, conjZ_eq]

theorem sign_step {n : Nat} (col : Fin n) (U R : Tab n)
    (hm : ∀ c : Fin n, isUnitXRow c (R.xs c) ∧ isUnitZRow c (R.zs c)) :
    (∀ c : Fin n, c ≠ col →
      (applyOps (sgCol col U) R).xs c = R.xs c ∧
      (applyOps (sgCol col U) R).zs c = R.zs c) ∧
    ((applyOps (sgCol col U) R).xs col).neg =
      ((R.xs col).neg ^^ (U.xs col).neg) ∧
    ((applyOps (sgCol col U) R).zs col).neg =
      ((R.zs col).neg ^^ (U.zs col).neg) ∧
    ((applyOps (sgCol col U) R).xs col).x = (R.xs col).x ∧
    ((applyOps (sgCol col U) R).xs col).z = (R.xs col).z ∧
    ((applyOps (sgCol col U) R).zs col).x = (R.zs col).x ∧
    ((applyOps (sgCol col U) R).zs col).z = (R.zs col).z := by
  have hx1 : (R.xs col).x col = true := by
    have h := congrFun (hm col).1.1 col
    rw [h]
    simp
  have hz1 : (R.xs col).z col = false := congrFun (hm col).1.2 col
  have hx2 : (R.zs col).x col = false := congrFun (hm col).2.1 col
  have hz2 : (R.zs col).z col = true := by
    have h := congrFun (hm col).2.2 col
    rw [h]
    simp
  have hx1o : ∀ c : Fin n, c ≠ col → (R.xs c).x col = false := by
    intro c hc
    have h := congrFun (hm c).1.1 col
    rw [h]
    exact decide_eq_false (Ne.symm hc)
  have hz1o : ∀ c : Fin n, c ≠ col → (R.xs c).z col = false :=
    fun c _ => congrFun (hm c).1.2 col
  have hx2o : ∀ c : Fin n, (R.zs c).x col = false :=
    fun c => congrFun (hm c).2.1 col
  have hz2o : ∀ c : Fin n, c ≠ col → (R.zs c).z col = false := by
    intro c hc
    have h := congrFun (hm c).2.2 col
    rw [h]
    exact decide_eq_false (Ne.symm hc)
  cases hb1 : (U.xs col).neg <;> cases hb2 : (U.zs col).neg
  · have e : sgCol col U = [] := by simp [sgCol, hb1, hb2]
    rw [e, applyOps_nil]
    exact ⟨fun c _ => ⟨rfl, rfl⟩, by rw [Bool.xor_false],
      by rw [Bool.xor_false], rfl, rfl, rfl, rfl⟩
  · have e : sgCol col U =
        [hInstr col, sInstr col, sInstr col, hInstr col] := by
      simp [sgCol, hb1, hb2]
    rw [e, applyOps_cons, applyOps_cons, applyOps_cons, applyOps_cons,
      applyOps_nil, applyInstr_h, applyInstr_s, applyInstr_s, applyInstr_h,
      mapRows_mapRows, mapRows_mapRows, mapRows_mapRows]
    refine ⟨?_, ?_, ?_, ?_, ?_, ?_, ?_⟩
    · intro c hc
      constructor
      · show conjH col (conjS col (conjS col (conjH col (R.xs c)))) = R.xs c
        rw [conjX_eq, hz1o c hc, Bool.xor_false]
      · show conjH col (conjS col (conjS col (conjH col (R.zs c)))) = R.zs c
        rw [conjX_eq, hz2o c hc, Bool.xor_false]
    · show (conjH col (conjS col (conjS col (conjH col (R.xs col))))).neg = _
      rw [conjX_eq, hz1]
    · show (conjH col (conjS col (conjS col (conjH col (R.zs col))))).neg = _
      rw [conjX_eq, hz2]
    · show (conjH col (conjS col (conjS col (conjH col (R.xs col))))).x = _
      rw [conjX_eq]
    · show (conjH col (conjS col (conjS col (conjH col (R.xs col))))).z = _
      rw [conjX_eq]
    · show (conjH col (conjS col (conjS col (conjH col (R.zs col))))).x = _
      rw [conjX_eq]
    · show (conjH col (conjS col (conjS col (conjH col (R.zs col))))).z = _
      rw [conjX_eq]
  · have e : sgCol col U = [sInstr col, sInstr col] := by
      simp [sgCol, hb1, hb2]
    rw [e, applyOps_cons, applyOps_cons, applyOps_nil,
      applyInstr_s, applyInstr_s, mapRows_mapRows]
    refine ⟨?_, ?_, ?_, ?_, ?_, ?_, ?_⟩
    · intro c hc
      constructor
      · show conjS col (conjS col (R.xs c)) = R.xs c
        rw [conjZ_eq, hx1o c hc, Bool.xor_false]
      · show conjS col (conjS col (R.zs c)) = R.zs c
        rw [conjZ_eq, hx2o c, Bool.xor_false]
    · show (conjS col (conjS col (R.xs col))).neg = _
      rw [conjZ_eq, hx1]
    · show (conjS col (conjS col (R.zs col))).neg = _
      rw [conjZ_eq, hx2]
    · show (conjS col (conjS col (R.xs col))).x = _
      rw [conjZ_eq]
    · show (conjS col (conjS col (R.xs col))).z = _
      rw [conjZ_eq]
    · show (conjS col (conjS col (R.zs col))).x = _
      rw [conjZ_eq]
    · show (conjS col (conjS col (R.zs col))).z = _
      rw [conjZ_eq]
  · have e : sgCol col U = [sInstr col, sInstr col,
        hInstr col, sInstr col, sInstr col, hInstr col] := by
      simp [sgCol, hb1, hb2]
    rw [e, applyOps_cons, applyOps_cons, applyOps_cons, applyOps_cons,
      applyOps_cons, applyOps_cons, applyOps_nil,
      applyInstr_s, applyInstr_s, applyInstr_h, applyInstr_s, applyInstr_s,
      applyInstr_h, mapRows_mapRows, mapRows_mapRows, mapRows_mapRows,
      mapRows_mapRows, mapRows_mapRows]
    refine ⟨?_, ?_, ?_, ?_, ?_, ?_, ?_⟩
    · intro c hc
      constructor
      · show conjH col (conjS col (conjS col (conjH col
          (conjS col (conjS col (R.xs c)))))) = R.xs c
        rw [conjZX_eq, hx1o c hc, hz1o c hc, Bool.xor_false, Bool.xor_false]
      · show conjH col (conjS col (conjS col (conjH col
          (conjS col (conjS col (R.zs c)))))) = R.zs c
        rw [conjZX_eq, hx2o c, hz2o c hc, Bool.xor_false, Bool.xor_false]
    · show (conjH col (conjS col (conjS col (conjH col
        (conjS col (conjS col (R.xs col))))))).neg = _
      rw [conjZX_eq, hx1, hz1]
      show (((R.xs col).neg ^^ true) ^^ false) = ((R.xs col).neg ^^ true)
      rw [Bool.xor_false]
    · show (conjH col (conjS col (conjS col (conjH col
        (conjS col (conjS col (R.zs col))))))).neg = _
      rw [conjZX_eq, hx2, hz2]
      show (((R.zs col).neg ^^ false) ^^ true) = ((R.zs col).neg ^^ true)
      rw [Bool.xor_false]
    · show (conjH col (conjS col (conjS col (conjH col
        (conjS col (conjS col (R.xs col))))))).x = _
      rw [conjZX_eq]
    · show (conjH col (conjS col (conjS col (conjH col
        (conjS col (conjS col (R.xs col))))))).z = _
      rw [conjZX_eq]
    · show (conjH col (conjS col (conjS col (conjH col
        (conjS col (conjS col (R.zs col))))))).x = _
      rw [conjZX_eq]
    · show (conjH col (conjS col (conjS col (conjH col
        (conjS col (conjS col (R.zs col))))))).z = _
      rw [conjZX_eq]

theorem sgEmitted {n : Nat} (U : Tab n) :
    ∀ op ∈ signGates U, Emitted (n := n) op := by
  intro op hop
  unfold signGates at hop
  rw [List.mem_flatMap] at hop
  obtain ⟨col, _, hmem⟩ := hop
  unfold sgCol at hmem
  rw [List.mem_append] at hmem
  rcases hmem with h | h
  · split at h
    · simp at h
      exact Or.inl ⟨col, h⟩
    · simp at h
  · split at h
    · simp at h
      rcases h with h | h | h
      · exact Or.inr (Or.inl ⟨col, h⟩)
      · exact Or.inl ⟨col, h⟩
      · exact Or.inr (Or.inl ⟨col, h⟩)
    · simp at h

theorem sign_loop {n : Nat} (U : Tab n) :
    ∀ (cols : List (Fin n)), cols.Nodup → ∀ (R : Tab n),
    (∀ c : Fin n, isUnitXRow c (R.xs c) ∧ isUnitZRow c (R.zs c)) →
    (∀ c ∈ cols, (R.xs c).neg = (U.xs c).neg ∧
      (R.zs c).neg = (U.zs c).neg) →
    (∀ c : Fin n,
      isUnitXRow c
        ((applyOps (cols.flatMap fun col => sgCol col U) R).xs c) ∧
      isUnitZRow c
        ((applyOps (cols.flatMap fun col => sgCol col U) R).zs c)) ∧
    (∀ c ∈ cols,
      ((applyOps (cols.flatMap fun col => sgCol col U) R).xs c).neg
        = false ∧
      ((applyOps (cols.flatMap fun col => sgCol col U) R).zs c).neg
        = false) ∧
    (∀ c : Fin n, c ∉ cols →
      (applyOps (cols.flatMap fun col => sgCol col U) R).xs c = R.xs c ∧
      (applyOps (cols.flatMap fun col => sgCol col U) R).zs c = R.zs c) := by
  intro cols
  induction cols with
  | nil =>
    intro _ R hm _
    rw [List.flatMap_nil, applyOps_nil]
    exact ⟨hm, fun c hc => absurd hc (List.not_mem_nil c),
      fun c _ => ⟨rfl, rfl⟩⟩
  | cons col cols ih =>
    intro hnd R hm hneg
    obtain ⟨hnotin, hnd'⟩ := List.nodup_cons.mp hnd
    rw [List.flatMap_cons, applyOps_append]
    obtain ⟨hoth, hnx, hnz, _, _, _, _⟩ := sign_step col U R hm
    have hm1 : ∀ c : Fin n,
        isUnitXRow c ((applyOps (sgCol col U) R).xs c) ∧
        isUnitZRow c ((applyOps (sgCol col U) R).zs c) := by
      intro c
      by_cases hc : c = col
      · subst hc
        obtain ⟨_, _, _, m1, m2, m3, m4⟩ := sign_step c U R hm
        exact ⟨⟨by rw [m1]; exact (hm c).1.1, by rw [m2]; exact (hm c).1.2⟩,
          ⟨by rw [m3]; exact (hm c).2.1, by rw [m4]; exact (hm c).2.2⟩⟩
      · obtain ⟨e1, e2⟩ := hoth c hc
        rw [e1, e2]
        exact hm c
    have hneg1 : ∀ c ∈ cols,
        ((applyOps (sgCol col U) R).xs c).neg = (U.xs c).neg ∧
        ((applyOps (sgCol col U) R).zs c).neg = (U.zs c).neg := by
      intro c hc
      have hcc : c ≠ col := fun h => hnotin (h ▸ hc)
      obtain ⟨e1, e2⟩ := hoth c hcc
      rw [e1, e2]
      exact hneg c (List.mem_cons_of_mem col hc)
    obtain ⟨fm, fneg, foth⟩ := ih hnd' (applyOps (sgCol col U) R) hm1 hneg1
    refine ⟨fm, ?_, ?_⟩
    · intro c hc
      rcases List.mem_cons.mp hc with rfl | hc'
      · obtain ⟨g1, g2⟩ := foth c hnotin
        constructor
        · rw [g1, hnx, (hneg c (List.mem_cons_self c cols)).1,
            Bool.xor_self]
        · rw [g2, hnz, (hneg c (List.mem_cons_self c cols)).2,
            Bool.xor_self]
      · exact fneg c hc'
    · intro c hc
      have hc1 : c ≠ col := fun h => hc (h ▸ List.mem_cons_self col cols)
      have hc2 : c ∉ cols := fun h => hc (List.mem_cons_of_mem col h)
      obtain ⟨g1, g2⟩ := foth c hc2
      obtain ⟨e1, e2⟩ := hoth c hc1
      exact ⟨by rw [g1, e1], by rw [g2, e2]⟩

theorem sign_phase {n : Nat} (U : Tab n)
    (hU : ∀ c : Fin n, isUnitXRow c (U.xs c) ∧ isUnitZRow c (U.zs c)) :
    applyOps (signGates U) U = idTab n := by
  obtain ⟨fm, fneg, _⟩ := sign_loop U (List.finRange n)
    (List.nodup_finRange n) U hU (fun c _ => ⟨rfl, rfl⟩)
  apply Tab_ext
  · funext i
    apply Pauli_ext
    · exact (fneg i (List.mem_finRange i)).1
    · exact (fm i).1.1
    · exact (fm i).1.2
  · funext i
    apply Pauli_ext
    · exact (fneg i (List.mem_finRange i)).2
    · exact (fm i).2.1
    · exact (fm i).2.2

theorem elim_gates_spec {n : Nat} (T : Tab n) (hT : TabOK T) :
    applyOps (elimGates T) T = idTab n ∧
    ∀ op ∈ elimGates T, Emitted (n := n) op := by
  obtain ⟨uOK, uu, uops⟩ := elim_total_units T hT
  have hU : ∀ c : Fin n,
      isUnitXRow c ((applyOps (elimLoop (List.finRange n) T) T).xs c) ∧
      isUnitZRow c ((applyOps (elimLoop (List.finRange n) T) T).zs c) :=
    fun c => uu c c.isLt
  constructor
  · unfold elimGates
    rw [applyOps_append]
    exact sign_phase _ hU
  · intro op hop
    unfold elimGates at hop
    rcases List.mem_append.mp hop with h | h
    · exact uops op h
    · exact sgEmitted _ op h

theorem applyInstr_invInstr {n : Nat} (op : CircuitInstruction)
    (hop : Emitted (n := n) op) (X : Tab n) :
    applyOps (invInstr op) (applyInstr op X) = X := by
  rcases hop with ⟨q, rfl⟩ | ⟨q, rfl⟩ | ⟨c, t, hct, rfl⟩
  · show applyOps [sInstr q, sInstr q, sInstr q]
      (applyInstr (sInstr q) X) = X
    rw [applyOps_cons, applyOps_cons, applyOps_cons, applyOps_nil,
      applyInstr_s, applyInstr_s, applyInstr_s, applyInstr_s,
      mapRows_mapRows, mapRows_mapRows, mapRows_mapRows]
    apply Tab_ext
    · funext i
      show conjS q (conjS q (conjS q (conjS q (X.xs i)))) = X.xs i
      exact conjS_four q (X.xs i)
    · funext i
      show conjS q (conjS q (conjS q (conjS q (X.zs i)))) = X.zs i
      exact conjS_four q (X.zs i)
  · show applyOps [hInstr q] (applyInstr (hInstr q) X) = X
    rw [applyOps_cons, applyOps_nil, applyInstr_h, applyInstr_h,
      mapRows_mapRows]
    apply Tab_ext
    · funext i
      show conjH q (conjH q (X.xs i)) = X.xs i
      exact conjH_conjH q (X.xs i)
    · funext i
      show conjH q (conjH q (X.zs i)) = X.zs i
      exact conjH_conjH q (X.zs i)
  · show applyOps [cxInstr c t] (applyInstr (cxInstr c t) X) = X
    rw [applyOps_cons, applyOps_nil, applyInstr_cx c t hct,
      applyInstr_cx c t hct, mapRows_mapRows]
    apply Tab_ext
    · funext i
      show conjCX c t (conjCX c t (X.xs i)) = X.xs i
      exact conjCX_conjCX c t hct (X.xs i)
    · funext i
      show conjCX c t (conjCX c t (X.zs i)) = X.zs i
      exact conjCX_conjCX c t hct (X.zs i)

theorem applyOps_inverse {n : Nat} :
    ∀ (gs : List CircuitInstruction), (∀ op ∈ gs, Emitted (n := n) op) →
    ∀ X : Tab n,
      applyOps (gs.reverse.flatMap invInstr) (applyOps gs X) = X := by
  intro gs
  induction gs with
  | nil =>
    intro _ X
    rfl
  | cons op gs ih =>
    intro hops X
    rw [List.reverse_cons, List.flatMap_append, applyOps_append,
      applyOps_cons,
      ih (fun o ho => hops o (List.mem_cons_of_mem op ho))
        (applyInstr op X)]
    have e : [op].flatMap invInstr = invInstr op := by simp
    rw [e]
    exact applyInstr_invInstr op (hops op (List.mem_cons_self op gs)) X

theorem ctt_ok_of_unitary {n : Nat} :
    ∀ (ops : List CircuitInstruction),
    (∀ op ∈ ops, (gdSample op.gate_type).is_unitary = true) →
    ∀ T : Tab n, circuit_to_tableau gdSample (applyInstr (n := n)) ops
      false false false T = Except.ok (applyOps ops T) := by
  intro ops
  induction ops with
  | nil =>
    intro _ T
    rfl
  | cons op ops ih =>
    intro hops T
    have hstep : ctt_step gdSample (applyInstr (n := n)) false false false
        T op = Except.ok (applyInstr op T) := by
      unfold ctt_step
      rw [hops op (List.mem_cons_self op ops)]
      rfl
    unfold circuit_to_tableau
    rw [List.foldlM_cons, hstep]
    show circuit_to_tableau gdSample (applyInstr (n := n)) ops false false
      false (applyInstr op T) = _
    rw [ih (fun o ho => hops o (List.mem_cons_of_mem op ho))
      (applyInstr op T), applyOps_cons]

/-- C1: for every valid tableau `T`, compiling the circuit synthesized by
the elimination method back into a tableau with all three ignore-flags
false reproduces `T` exactly — same rows, same signs:
`circuit_to_tableau(tableau_to_circuit(T, "elimination"), false, false,
false) = T`. -/
theorem tableau_elimination_roundtrip {n : Nat} (T : Tab n)
    (hT : TabOK T) :
    circuit_to_tableau gdSample (applyInstr (n := n))
      (tableau_to_circuit_elimination T) false false false (idTab n) =
      Except.ok T := by
  obtain ⟨hid, hem⟩ := elim_gates_spec T hT
  have hunit : ∀ op ∈ tableau_to_circuit_elimination T,
      (gdSample op.gate_type).is_unitary = true := by
    intro op hop
    unfold tableau_to_circuit_elimination at hop
    rw [List.mem_flatMap] at hop
    obtain ⟨g, hg, hop⟩ := hop
    have hgE : Emitted (n := n) g := hem g (List.mem_reverse.mp hg)
    have hopg : op = g := by
      unfold invInstr at hop
      split at hop
      · simp at hop
        exact hop
      · simp at hop
        exact hop
    subst hopg
    rcases hgE with ⟨q, rfl⟩ | ⟨q, rfl⟩ | ⟨c, t, _, rfl⟩
    · rfl
    · rfl
    · rfl
  rw [ctt_ok_of_unitary _ hunit (idTab n)]
  have hinv := applyOps_inverse (elimGates T) hem T
  rw [hid] at hinv
  exact congrArg Except.ok hinv

theorem tableau_elimination_roundtrip_witness :
    TabOK (⟨fun _ => ⟨false, fun _ => false, fun _ => true⟩,
            fun _ => ⟨false, fun _ => true, fun _ => false⟩⟩ : Tab 1) ∧
    circuit_to_tableau gdSample (applyInstr (n := 1))
      (tableau_to_circuit_elimination
        (⟨fun _ => ⟨false, fun _ => false, fun _ => true⟩,
          fun _ => ⟨false, fun _ => true, fun _ => false⟩⟩ : Tab 1))
      false false false (idTab 1) =
      Except.ok ⟨fun _ => ⟨false, fun _ => false, fun _ => true⟩,
                 fun _ => ⟨false, fun _ => true, fun _ => false⟩⟩ :=
  ⟨by unfold TabOK; decide,
   tableau_elimination_roundtrip _ (by unfold TabOK; decide)⟩

end StimConv
